import Mathlib

/-!
# Twitter-Vault: verification of the import/export/analytics core

A shallow embedding of the Twitter-Vault repository (TypeScript/React) in
Lean 4, covering the parts needed by the claims under audit:

* the JSON/JS runtime value model (`Json`) with JavaScript truthiness,
  used because the importer probes duck-typed objects;
* the canonical record type `TweetItem` (src/db/db.ts) and the Dexie
  store modelled as an association list with upsert (`bulkPut`);
* the import normalizer `processTwillotJson` together with
  `findBestVideo` (src/utils/importer.ts, the version that resolves
  video URLs);
* the JSON exporter `exportData` ("json" branch) and the media archiver
  `downloadMediaZip` (src/utils/exporter.ts);
* the activity statistics scans of `ActivityGraph`
  (src/components/ActivityGraph.tsx): longest streak and longest gap;
* a model of the ECMAScript `Date` runtime: a `Date` value is either a
  millisecond epoch offset or the Invalid Date (`Option Int`), with
  `toISOString` and ISO parsing implemented over the proleptic Gregorian
  calendar (Howard Hinnant's civil-from-days algorithm, the standard
  model of the ECMAScript date internals).
-/

namespace TwitterVault

/-- A JavaScript runtime value as the importer sees it after
JSON parsing: the JSON constructors plus undefined, since the
importer constantly probes absent fields. -/
inductive Json where
  | undef : Json
  | null : Json
  | bool (b : Bool) : Json
  | num (n : Int) : Json
  | str (s : String) : Json
  | arr (elems : List Json) : Json
  | obj (fields : List (String × Json)) : Json

namespace Json

mutual

/-- Structural boolean equality on `Json` (nested inductive, so the
instance is written by hand). -/
def beq (a b : Json) : Bool :=
  match a, b with
  | .undef, .undef => true
  | .null, .null => true
  | .bool p, .bool q => p == q
  | .num p, .num q => p == q
  | .str p, .str q => p == q
  | .arr es, .arr es2 => beqList es es2
  | .obj ps, .obj ps2 => beqFields ps ps2
  | _, _ => false

/-- Element-wise `beq` on arrays. -/
def beqList (es es2 : List Json) : Bool :=
  match es, es2 with
  | [], [] => true
  | e :: rest, e2 :: rest2 => beq e e2 && beqList rest rest2
  | _, _ => false

/-- Field-wise `beq` on objects (key order significant, as in a
structural comparison of parsed objects). -/
def beqFields (ps ps2 : List (String × Json)) : Bool :=
  match ps, ps2 with
  | [], [] => true
  | (k, v) :: rest, (k2, v2) :: rest2 =>
      k == k2 && beq v v2 && beqFields rest rest2
  | _, _ => false

end

mutual

theorem beq_refl : ∀ a : Json, beq a a = true
  | .undef => rfl
  | .null => rfl
  | .bool _ => by simp [beq]
  | .num _ => by simp [beq]
  | .str _ => by simp [beq]
  | .arr xs => by simpa [beq] using beqList_refl xs
  | .obj fs => by simpa [beq] using beqFields_refl fs

theorem beqList_refl : ∀ xs : List Json, beqList xs xs = true
  | [] => rfl
  | x :: xs => by simp [beqList, beq_refl x, beqList_refl xs]

theorem beqFields_refl : ∀ fs : List (String × Json), beqFields fs fs = true
  | [] => rfl
  | (k, v) :: fs => by simp [beqFields, beq_refl v, beqFields_refl fs]

end

mutual

theorem eq_of_beq : ∀ {a b : Json}, beq a b = true → a = b
  | .undef, .undef, _ => rfl
  | .null, .null, _ => rfl
  | .bool _, .bool _, h => by simpa [beq] using h
  | .num _, .num _, h => by simpa [beq] using h
  | .str _, .str _, h => by simpa [beq] using h
  | .arr xs, .arr ys, h => by
      simp only [beq] at h
      simpa using eqList_of_beq h
  | .obj fs, .obj gs, h => by
      simp only [beq] at h
      simpa using eqFields_of_beq h

theorem eqList_of_beq : ∀ {xs ys : List Json}, beqList xs ys = true → xs = ys
  | [], [], _ => rfl
  | x :: xs, y :: ys, h => by
      simp only [beqList, Bool.and_eq_true] at h
      rw [eq_of_beq h.1, eqList_of_beq h.2]

theorem eqFields_of_beq :
    ∀ {fs gs : List (String × Json)}, beqFields fs gs = true → fs = gs
  | [], [], _ => rfl
  | (k, v) :: fs, (l, w) :: gs, h => by
      simp only [beqFields, Bool.and_eq_true] at h
      obtain ⟨⟨h1, h2⟩, h3⟩ := h
      rw [show k = l from by simpa using h1, eq_of_beq h2, eqFields_of_beq h3]

end

instance : DecidableEq Json := fun a b =>
  decidable_of_iff (beq a b = true) ⟨eq_of_beq, fun h => h ▸ beq_refl a⟩

/-- JavaScript truthiness of a value; an absent field (undefined) is
falsy, empty strings and zero are falsy, arrays and objects are truthy. -/
def truthy : Json → Bool
  | .undef => false
  | .null => false
  | .bool b => b
  | .num n => n != 0
  | .str s => s ≠ ""
  | .arr _ => true
  | .obj _ => true

@[simp] theorem truthy_undef : truthy Json.undef = false := rfl

@[simp] theorem truthy_arr (xs : List Json) : truthy (Json.arr xs) = true := rfl

@[simp] theorem truthy_obj (fs : List (String × Json)) :
    truthy (Json.obj fs) = true := rfl

/-- Property lookup (`entry.key`): the first binding of the key when the
value is an object, and undefined otherwise or when absent. -/
def get (j : Json) (key : String) : Json :=
  match j with
  | .obj fields =>
      match fields.find? (fun f => f.1 = key) with
      | some f => f.2
      | none => .undef
  | _ => .undef

theorem get_obj (fs : List (String × Json)) (k : String) :
    (Json.obj fs).get k =
      (match fs.find? (fun f => f.1 = k) with
        | some f => f.2
        | none => Json.undef) := rfl

/-- The JavaScript short-circuit `a || b`. -/
def jsOr (a b : Json) : Json := if truthy a then a else b

/-- The JavaScript `Array.isArray`. -/
def isArray : Json → Bool
  | .arr _ => true
  | _ => false

/-- Elements of an array value; non-arrays contribute no elements
(the importer only maps over values that are arrays at runtime). -/
def elems : Json → List Json
  | .arr xs => xs
  | _ => []

/-- The JavaScript `.length` as the importer and archiver use it:
defined for arrays (element count) and strings (character count),
undefined otherwise.  A `.length > 0` test on undefined is false. -/
def jsLength : Json → Option Int
  | .arr xs => some xs.length
  | .str s => some s.length
  | _ => none

/-- The test `x.length > 0` (false when `.length` is undefined,
mirroring the NaN comparison). -/
def lengthPos (j : Json) : Bool :=
  match jsLength j with
  | some n => n > 0
  | none => false

/-- The JavaScript `String(x)` coercion for the primitive values the
importer can feed it (identifier coercion). -/
def jsToString : Json → String
  | .undef => "undefined"
  | .null => "null"
  | .bool b => if b then "true" else "false"
  | .num n => toString n
  | .str s => s
  | .arr _ => ""
  | .obj _ => "[object Object]"

end Json

/-! ## The ECMAScript Date runtime model

A JavaScript `Date` object is either a finite millisecond offset from
the Unix epoch or the Invalid Date; it is never null.  The civil
(proleptic Gregorian) calendar conversions below are Howard Hinnant's
algorithms, the standard model of the ECMAScript date internals. -/

/-- A JavaScript `Date` value: `some ms` for a finite time value,
`none` for the Invalid Date. -/
abbrev JsDate := Option Int

/-- Days since 1970-01-01 to civil `(year, month, day)`. -/
def civilFromDays (z : Int) : Int × Int × Int :=
  let z2 := z + 719468
  let era := z2 / 146097
  let doe := z2 - era * 146097
  let yoe := (doe - doe / 1460 + doe / 36524 - doe / 146096) / 365
  let y := yoe + era * 400
  let doy := doe - (365 * yoe + yoe / 4 - yoe / 100)
  let mp := (5 * doy + 2) / 153
  let d := doy - (153 * mp + 2) / 5 + 1
  let m := if mp < 10 then mp + 3 else mp - 9
  (if m ≤ 2 then y + 1 else y, m, d)

/-- Civil `(year, month, day)` to days since 1970-01-01. -/
def daysFromCivil (y m d : Int) : Int :=
  let y2 := if m ≤ 2 then y - 1 else y
  let era := y2 / 400
  let yoe := y2 - era * 400
  let mp := if m > 2 then m - 3 else m + 9
  let doy := (153 * mp + 2) / 5 + d - 1
  let doe := yoe * 365 + yoe / 4 - yoe / 100 + doy
  era * 146097 + doe - 719468

/-- One decimal digit as a character. -/
def digitChar (n : Int) : Char := Char.ofNat (48 + n.toNat)

/-- A nonnegative integer below 100 as two zero-padded digits. -/
def pad2 (n : Int) : List Char := [digitChar (n / 10), digitChar (n % 10)]

/-- A nonnegative integer below 1000 as three zero-padded digits. -/
def pad3 (n : Int) : List Char := digitChar (n / 100) :: pad2 (n % 100)

/-- A nonnegative integer below 10000 as four zero-padded digits. -/
def pad4 (n : Int) : List Char := digitChar (n / 1000) :: pad3 (n % 1000)

/-- `Date.prototype.toISOString` for times whose year lies in 0..9999:
`YYYY-MM-DDTHH:mm:ss.sssZ`. -/
def toISOString (ms : Int) : String :=
  let days := ms / 86400000
  let tod := ms % 86400000
  let ymd := civilFromDays days
  String.mk
    (pad4 ymd.1 ++ '-' :: pad2 ymd.2.1 ++ '-' :: pad2 ymd.2.2 ++
     'T' :: pad2 (tod / 3600000) ++ ':' :: pad2 (tod % 3600000 / 60000) ++
     ':' :: pad2 (tod % 60000 / 1000) ++ '.' :: pad3 (tod % 1000) ++ ['Z'])

/-- Numeric value of a decimal digit character, when it is one. -/
def digitVal (c : Char) : Option Int :=
  if 48 ≤ c.toNat ∧ c.toNat ≤ 57 then some ((c.toNat : Int) - 48) else none

/-- Parse exactly `k` leading decimal digits. -/
def parseDigits : List Char → Nat → Option (Int × List Char)
  | cs, 0 => some (0, cs)
  | [], _ + 1 => none
  | c :: cs, k + 1 =>
      match digitVal c with
      | none => none
      | some d =>
          match parseDigits cs k with
          | none => none
          | some (n, rest) => some (d * 10 ^ k + n, rest)

/-- Parse the ECMAScript Date Time String Format
`YYYY-MM-DDTHH:mm:ss.sssZ` (the format `toISOString` emits) to a
millisecond time value.  Any other string is modelled as parsing to the
Invalid Date; the repository only round-trips strings produced by
`toISOString`, and malformed timestamp strings indeed yield the Invalid
Date in JavaScript. -/
def parseISO (s : String) : Option Int := do
  let (y, r1) ← parseDigits s.toList 4
  let ('-' :: r2) := r1 | none
  let (mo, r3) ← parseDigits r2 2
  let ('-' :: r4) := r3 | none
  let (d, r5) ← parseDigits r4 2
  let ('T' :: r6) := r5 | none
  let (h, r7) ← parseDigits r6 2
  let (':' :: r8) := r7 | none
  let (mi, r9) ← parseDigits r8 2
  let (':' :: r10) := r9 | none
  let (se, r11) ← parseDigits r10 2
  let ('.' :: r12) := r11 | none
  let (msec, r13) ← parseDigits r12 3
  let (['Z']) := r13 | none
  if 1 ≤ mo ∧ mo ≤ 12 ∧ 1 ≤ d ∧ d ≤ 31 ∧ h ≤ 24 ∧ mi ≤ 59 ∧ se ≤ 59 then
    some (daysFromCivil y mo d * 86400000 +
      h * 3600000 + mi * 60000 + se * 1000 + msec)
  else none

/-- The `new Date(x)` constructor applied to a runtime value `x` (the
importer only reaches it with truthy `x`): numbers are millisecond time
values, strings are parsed, booleans coerce through their numeric
value; array and object arguments are modelled as Invalid. -/
def jsNewDate : Json → JsDate
  | .num n => some n
  | .str s => parseISO s
  | .bool b => some (if b then 1 else 0)
  | _ => none

/-! ## Canonical record and store

`TweetItem` is the persisted record shape (src/db/db.ts).  Fields that
TypeScript types as `string`/optional strings hold whatever runtime
value the importer put there, so they are modelled as `Json`
(`Json.undef` models an absent optional field).  The Dexie table keyed
by `id` is an association list; `put` overwrites in place or appends,
which is upsert-by-primary-key. -/

structure TweetItem where
  id : String
  fullText : Json
  createdAt : JsDate
  authorHandle : Json
  authorName : Json
  avatarUrl : Json
  mediaUrl : Json
  mediaUrls : Json
  videoUrl : Json
  type : String
  isDeleted : Int
  jsonBlob : Json
deriving DecidableEq

/-- The Dexie `items` table: a key-value list keyed by `id`. -/
abbrev Store := List (String × TweetItem)

/-- Row lookup by primary key. -/
def Store.get : Store → String → Option TweetItem
  | [], _ => none
  | (k, v) :: s, i => if k = i then some v else Store.get s i

/-- IndexedDB `put`: overwrite the row with the same primary key in
place, or add a new row. -/
def Store.put : Store → TweetItem → Store
  | [], item => [(item.id, item)]
  | (k, v) :: s, item =>
      if k = item.id then (k, item) :: s else (k, v) :: Store.put s item

/-- Dexie `bulkPut`: `put` each item in order. -/
def Store.bulkPut (s : Store) (items : List TweetItem) : Store :=
  items.foldl Store.put s

/-- The App `handleDelete` handler: `db.items.update(id, { isDeleted: 1 })`,
a soft delete that only flips the flag of an existing row. -/
def Store.softDelete : Store → String → Store
  | [], _ => []
  | (k, v) :: s, i =>
      if k = i then (k, { v with isDeleted := 1 }) :: s
      else (k, v) :: Store.softDelete s i

/-! ## The import normalizer (src/utils/importer.ts) -/

/-- The numeric value of `v.bitrate || 0` as used by the video-variant
comparator; a non-numeric bitrate is modelled as 0. -/
def bitrateOf (v : Json) : Int :=
  match Json.jsOr (v.get "bitrate") (Json.num 0) with
  | .num n => n
  | _ => 0

/-- Extract the playable MP4 from a media item: keep the variants whose
content type is `video/mp4`, sort by descending bitrate (JavaScript
`Array.prototype.sort` is stable, modelled by `mergeSort`), and take the
first.  `best ? best.url : undefined` is the match on the head; a
surviving variant is an object, hence truthy. -/
def findBestVideo (mediaItem : Json) : Json :=
  let info := Json.jsOr (mediaItem.get "video_info")
      (if mediaItem.get "type" = Json.str "video" then mediaItem else Json.null)
  if Json.truthy info && Json.truthy (info.get "variants") then
    let best := (((info.get "variants").elems.filter
        (fun v => v.get "content_type" = Json.str "video/mp4")).mergeSort
        (fun a b => decide (bitrateOf b ≤ bitrateOf a))).head?
    match best with
    | some b => b.get "url"
    | none => Json.undef
  else (Json.undef)

/-- The element `xs[0]` of a JavaScript array value (undefined when the
array is empty). -/
def arrFirst : Json → Json
  | .arr (x :: _) => x
  | _ => (.undef)

/-- The JavaScript `String.prototype.startsWith`, on character lists
(the Lean `String` library functions are not kernel-reducible, so the
JS string methods are modelled on `String.data`). -/
def jsStartsWith (s pre : String) : Bool := decide (pre.data <+: s.data)

/-- Split a character list at every occurrence of a separator. -/
def charSplit (sep : Char) : List Char → List (List Char)
  | [] => [[]]
  | c :: rest =>
      match charSplit sep rest with
      | [] => [[c]]
      | g :: gs => if c = sep then [] :: g :: gs else (c :: g) :: gs

/-- The JavaScript `String.prototype.split` with a one-character
separator. -/
def jsSplit (s : String) (sep : Char) : List String :=
  (charSplit sep s.data).map String.mk

/-- Identity resolution: first of `entry.id`, `entry.tweet_id`,
`entry.tweetId`, sentinel `"unknown_id"`; a `bookmark_`-prefixed
identifier keeps only its last underscore-delimited segment. -/
def resolveId (entry : Json) : String :=
  let rawId := Json.jsOr (entry.get "id") (Json.jsOr (entry.get "tweet_id")
      (Json.jsOr (entry.get "tweetId") (Json.str "unknown_id")))
  if jsStartsWith (Json.jsToString rawId) "bookmark_" then
    (jsSplit (Json.jsToString rawId) '_').getLastD ""
  else Json.jsToString rawId

/-- Timestamp resolution: `entry.createdAt` wins, then `entry.created_at`
(numeric values below 10000000000 are seconds and are scaled to
milliseconds), else the import time `now`. -/
def resolveDate (entry : Json) (now : Int) : JsDate :=
  if Json.truthy (entry.get "createdAt") then jsNewDate (entry.get "createdAt")
  else if Json.truthy (entry.get "created_at") then
    match entry.get "created_at" with
    | .num ts => some (if ts < 10000000000 then ts * 1000 else ts)
    | v => jsNewDate v
  else some now

/-- Category resolution: an explicit `"bookmark"`/`"like"` type field
wins; otherwise the `bookmarked`/`favorited` flags; default bookmark. -/
def resolveType (entry : Json) : String :=
  if entry.get "type" = Json.str "bookmark" then "bookmark"
  else if entry.get "type" = Json.str "like" then "like"
  else if Json.truthy (entry.get "bookmarked") then "bookmark"
  else if Json.truthy (entry.get "favorited") then "like"
  else "bookmark"

/-- Media resolution, first match wins: (a) an internal-backup
`mediaUrls` array is used as-is together with `mediaUrl`/`videoUrl`;
(b) a Twitter-Web-Exporter `media` list: thumbnails for videos and
animated gifs, originals for photos, `mediaUrl` is the first display
URL, `videoUrl` the original of the first video/gif entry;
(c) `extended_entities.media` or `media_items`: `media_url_https`
display URLs and `findBestVideo` of the first video-ish entry.
Returns `(mediaUrls, mediaUrl, videoUrl)`. -/
def resolveMedia (entry : Json) : Json × Json × Json :=
  if Json.truthy (entry.get "mediaUrls") && Json.isArray (entry.get "mediaUrls") then
    (entry.get "mediaUrls", entry.get "mediaUrl", entry.get "videoUrl")
  else if Json.truthy (entry.get "media") && Json.isArray (entry.get "media") &&
      Json.lengthPos (entry.get "media") then
    let mediaUrls := Json.arr ((entry.get "media").elems.map (fun m =>
      if m.get "type" = Json.str "video" ∨ m.get "type" = Json.str "animated_gif" then
        m.get "thumbnail"
      else Json.jsOr (m.get "original") (m.get "url")))
    let videoUrl :=
      match (entry.get "media").elems.find? (fun m =>
          m.get "type" = Json.str "video" ∨ m.get "type" = Json.str "animated_gif") with
      | some videoEntry => videoEntry.get "original"
      | none => Json.undef
    (mediaUrls, arrFirst mediaUrls, videoUrl)
  else if Json.truthy (entry.get "extended_entities") ∨
      Json.truthy (entry.get "media_items") then
    let rawMedia := Json.jsOr ((entry.get "extended_entities").get "media")
        (Json.jsOr (entry.get "media_items") (Json.arr []))
    if Json.lengthPos rawMedia then
      let mediaUrls := Json.arr (rawMedia.elems.map (fun m => m.get "media_url_https"))
      let videoUrl :=
        match rawMedia.elems.find? (fun m =>
            m.get "type" = Json.str "video" ∨ m.get "type" = Json.str "animated_gif" ∨
            Json.truthy (m.get "video_info")) with
        | some videoEntry => findBestVideo videoEntry
        | none => Json.undef
      (mediaUrls, arrFirst mediaUrls, videoUrl)
    else (Json.arr [], Json.undef, Json.undef)
  else (Json.arr [], Json.undef, Json.undef)

/-- The body of the `dataArray.map` in `processTwillotJson`: one Import
Entry to one canonical record. -/
def normalizeEntry (entry : Json) (now : Int) : TweetItem :=
  let media := resolveMedia entry
  { id := resolveId entry
    fullText := Json.jsOr (entry.get "fullText") (Json.jsOr (entry.get "full_text")
      (Json.jsOr (entry.get "text") (Json.str "")))
    createdAt := resolveDate entry now
    authorHandle := Json.jsOr (entry.get "authorHandle")
      (Json.jsOr (entry.get "screen_name") (Json.str "Unknown"))
    authorName := Json.jsOr (entry.get "authorName") (Json.jsOr (entry.get "name")
      (Json.jsOr (entry.get "username") (Json.str "Twitter User")))
    avatarUrl := Json.jsOr (entry.get "avatarUrl")
      (Json.jsOr (entry.get "profile_image_url") (entry.get "avatar_url"))
    mediaUrl := media.2.1
    mediaUrls := media.1
    videoUrl := media.2.2
    type := resolveType entry
    isDeleted := 0
    jsonBlob := entry }

/-- The filename check `/\.jsonl?$/i`: the lowercased name ends in
`.json` or `.jsonl`. -/
def validFileName (name : String) : Bool :=
  let low := name.data.map Char.toLower
  decide (".json".data <:+ low) || decide (".jsonl".data <:+ low)

/-- The importer, from the parsed data array onward: `dataArray` is the
result of the parse stage (a whole-document array, a singleton for a
single object, or the surviving lines of the JSONL fallback).  Returns
the reported import count and the updated store, or the user-facing
error message. -/
def processTwillotJson (fileName : String) (dataArray : List Json) (now : Int)
    (store : Store) : Except String (Nat × Store) :=
  if ¬ validFileName fileName then
    .error "Please upload a .json or .jsonl file."
  else if dataArray.isEmpty then
    .error "No valid data found in file."
  else
    let itemsToSave := dataArray.map (fun e => normalizeEntry e now)
    .ok (itemsToSave.length, store.bulkPut itemsToSave)

/-! ## The JSON exporter (src/utils/exporter.ts, `exportData`) -/

mutual

/-- The composite `JSON.parse (JSON.stringify v)` on a runtime value:
undefined object fields are dropped, undefined array elements become
null, everything else is preserved. -/
def jnorm : Json → Json
  | .obj fs => .obj (jnormFields fs)
  | .arr xs => .arr (jnormElems xs)
  | j => j

/-- Stringify-normalization of array elements. -/
def jnormElems : List Json → List Json
  | [] => []
  | x :: xs => (if x = Json.undef then Json.null else jnorm x) :: jnormElems xs

/-- Stringify-normalization of object fields. -/
def jnormFields : List (String × Json) → List (String × Json)
  | [] => []
  | (k, v) :: fs =>
      if v = Json.undef then jnormFields fs else (k, jnorm v) :: jnormFields fs

end

/-- `JSON.stringify` of a stored `Date`: the ISO string, or null for an
Invalid Date (`Date.prototype.toJSON` yields null then). -/
def dateJson : JsDate → Json
  | some ms => .str (toISOString ms)
  | none => .null

/-- The stored object in its literal field order (the object literal
built by the importer). -/
def exportFields (r : TweetItem) : List (String × Json) :=
  [("id", .str r.id), ("fullText", r.fullText),
   ("createdAt", dateJson r.createdAt), ("authorHandle", r.authorHandle),
   ("authorName", r.authorName), ("avatarUrl", r.avatarUrl),
   ("mediaUrl", r.mediaUrl), ("mediaUrls", r.mediaUrls),
   ("videoUrl", r.videoUrl), ("type", .str r.type),
   ("isDeleted", .num r.isDeleted), ("jsonBlob", r.jsonBlob)]

/-- One exported record as it comes back from
`JSON.parse (JSON.stringify item)`. -/
def itemToJson (r : TweetItem) : Json :=
  jnorm (.obj (exportFields r))

/-- The date part `yyyy-MM-dd` used in the export filename. -/
def formatYmd (ms : Int) : String :=
  let ymd := civilFromDays (ms / 86400000)
  String.mk (pad4 ymd.1 ++ '-' :: pad2 ymd.2.1 ++ '-' :: pad2 ymd.2.2)

/-- `exportData("json")`: all rows with `isDeleted = 0`; when none, the
alert path exports nothing (`none`); otherwise the download filename and
the parsed content of the produced JSON file (a pretty-printed array of
the kept records). -/
def exportDataJson (store : Store) (now : Int) : Option (String × List Json) :=
  let items := (store.map Prod.snd).filter (fun r => r.isDeleted = 0)
  if items.length = 0 then none
  else some ("twitter-vault-export-" ++ formatYmd now ++ ".json",
    items.map itemToJson)

/-! ## The media archiver (src/utils/exporter.ts, `downloadMediaZip`)

The archiver is driven by a fetch oracle `fetchOk` telling which URL
fetches succeed.  The `batchSize = 3` loop only bounds how many fetches
are in flight; each completion runs `processedCount++; onProgress(...)`
atomically on the event loop, so the recorded progress pairs and the
final counters are identical across interleavings and the model
processes units sequentially in item order. -/

instance {ε α : Type} [DecidableEq ε] [DecidableEq α] :
    DecidableEq (Except ε α) := fun
  | .error a, .error b => decidable_of_iff (a = b) (by simp)
  | .ok a, .ok b => decidable_of_iff (a = b) (by simp)
  | .error _, .ok _ => isFalse (by simp)
  | .ok _, .error _ => isFalse (by simp)

/-- The observable outcome of a `downloadMediaZip` call: the returned
count or thrown error, the arguments of the `onProgress` calls in call
order, and the alerts shown. -/
structure ZipOutcome where
  result : Except String Nat
  progress : List (Nat × Nat)
  alerts : List String
deriving DecidableEq

/-- The candidate filter: `i.videoUrl || i.mediaUrl || (i.mediaUrls &&
i.mediaUrls.length > 0)`. -/
def hasMedia (i : TweetItem) : Bool :=
  Json.truthy i.videoUrl || Json.truthy i.mediaUrl ||
    (Json.truthy i.mediaUrls && Json.lengthPos i.mediaUrls)

/-- Media units contributed by one candidate record: one for a video,
else one per image URL. -/
def unitCount (i : TweetItem) : Nat :=
  if Json.truthy i.videoUrl then 1
  else if Json.truthy i.mediaUrls && Json.lengthPos i.mediaUrls then
    ((Json.jsLength i.mediaUrls).getD 0).toNat
  else if Json.truthy i.mediaUrl then 1
  else 0

/-- The `totalFiles` computed up front. -/
def totalFiles (items : List TweetItem) : Nat :=
  ((items.filter hasMedia).map unitCount).sum

/-- The image URL list of a record without video: `item.mediaUrls` when
non-empty, else the singleton `item.mediaUrl`, else nothing. -/
def imageUrls (i : TweetItem) : List Json :=
  if Json.truthy i.mediaUrls && Json.lengthPos i.mediaUrls then i.mediaUrls.elems
  else if Json.truthy i.mediaUrl then [i.mediaUrl]
  else []

/-- Archiver counters while units complete. -/
structure ZipState where
  processed : Nat
  success : Nat
  progress : List (Nat × Nat)
deriving DecidableEq

/-- One unit settles: on success the blob is archived and
`successCount++`; in the `finally`, `processedCount++` and one
`onProgress(processedCount, totalFiles)` call. -/
def processUnit (total : Nat) (fetchOk : Json → Bool) (st : ZipState)
    (url : Json) : ZipState :=
  { processed := st.processed + 1
    success := if fetchOk url then st.success + 1 else st.success
    progress := st.progress ++ [(st.processed + 1, total)] }

/-- One candidate record: the video only when present, else its
images. -/
def processItem (total : Nat) (fetchOk : Json → Bool) (st : ZipState)
    (i : TweetItem) : ZipState :=
  if Json.truthy i.videoUrl then processUnit total fetchOk st i.videoUrl
  else (imageUrls i).foldl (processUnit total fetchOk) st

/-- `downloadMediaZip(items, handle, onProgress)`: filter candidates,
count units; zero units alerts and returns 0; otherwise one initial
`onProgress(0, total)`, then every unit completes exactly once; zero
successes throws, otherwise the archive is produced and the success
count returned. -/
def downloadMediaZip (items : List TweetItem) (fetchOk : Json → Bool) :
    ZipOutcome :=
  let mediaItems := items.filter hasMedia
  let total := totalFiles items
  if total = 0 then
    { result := .ok 0, progress := [], alerts := ["No media found for this user."] }
  else
    let st := mediaItems.foldl (processItem total fetchOk)
      { processed := 0, success := 0, progress := [(0, total)] }
    if st.success = 0 then
      { result := .error "Failed to download media.", progress := st.progress,
        alerts := [] }
    else
      { result := .ok st.success, progress := st.progress, alerts := [] }

/-! ## Activity statistics (src/components/ActivityGraph.tsx)

The active-day keys (`yyyy-MM-dd` strings) are modelled by their civil
day numbers: zero-padded date keys sort lexicographically exactly as
the day numbers sort numerically, and `differenceInDays` of two parsed
day keys is the difference of their day numbers. -/

/-- One step of the streak scan: state is `(maxStreak, currentStreak,
prevDate)`. -/
def streakStep (st : Nat × Nat × Option Int) (d : Int) : Nat × Nat × Option Int :=
  let cur :=
    match st.2.2 with
    | none => 1
    | some prev => if d - prev = 1 then st.2.1 + 1 else 1
  (max st.1 cur, cur, some d)

/-- Longest streak: one pass over the ascending active days,
incrementing on a gap of exactly one day, resetting to 1 otherwise,
tracking the running maximum. -/
def maxStreakScan (activeDates : List Int) : Nat :=
  (activeDates.foldl streakStep (0, 0, none)).1

/-- Longest gap: the maximum day difference between consecutive active
days, minus 1 when positive. -/
def maxGapScan (activeDates : List Int) : Int :=
  let m :=
    if activeDates.length > 1 then
      (activeDates.zip activeDates.tail).foldl
        (fun mx p => if p.2 - p.1 > mx then p.2 - p.1 else mx) 0
    else 0
  if m > 0 then m - 1 else 0

/-! ## Store lemmas: upsert semantics -/

/-- The key column of the store. -/
def Store.keys (s : Store) : List String := s.map Prod.fst

theorem Store.get_put (s : Store) (r : TweetItem) (i : String) :
    Store.get (Store.put s r) i = if r.id = i then some r else Store.get s i := by
  induction s with
  | nil =>
      by_cases h : r.id = i <;> simp [Store.put, Store.get, h]
  | cons kv s ih =>
      obtain ⟨k, v⟩ := kv
      by_cases hk : k = r.id
      · subst hk
        by_cases h : r.id = i <;> simp [Store.put, Store.get, h]
      · have hrk : ¬ r.id = k := fun h => hk h.symm
        by_cases h : k = i
        · have hir : ¬ r.id = i := fun hh => hk (by rw [hh, h])
          have hir2 : ¬ i = r.id := fun hh => hk (h.trans hh)
          simp [Store.put, Store.get, hk, h, hir, hir2]
        · simp [Store.put, Store.get, hk, h, ih]

theorem Store.get_bulkPut (s : Store) (items : List TweetItem) (i : String) :
    Store.get (Store.bulkPut s items) i =
      match items.reverse.find? (fun r => r.id = i) with
      | some r => some r
      | none => Store.get s i := by
  induction items generalizing s with
  | nil => simp [Store.bulkPut]
  | cons r rest ih =>
      show Store.get (Store.bulkPut (Store.put s r) rest) i = _
      rw [ih]
      rw [List.reverse_cons, List.find?_append, Store.get_put]
      cases hf : rest.reverse.find? (fun r => r.id = i) with
      | some x => simp [hf, Option.orElse]
      | none =>
          by_cases h : r.id = i <;> simp [hf, Option.orElse, h]

theorem Store.keys_put (s : Store) (r : TweetItem) :
    Store.keys (Store.put s r) =
      if r.id ∈ Store.keys s then Store.keys s else Store.keys s ++ [r.id] := by
  induction s with
  | nil => simp [Store.put, Store.keys]
  | cons kv s ih =>
      obtain ⟨k, v⟩ := kv
      by_cases hk : k = r.id
      · subst hk
        simp [Store.put, Store.keys]
      · have hrk : ¬ r.id = k := fun h => hk h.symm
        by_cases hmem : r.id ∈ Store.keys s
        · simp only [Store.keys] at hmem
          simp only [Store.put, if_neg hk, Store.keys, List.map_cons] at ih ⊢
          rw [ih]
          simp [hmem, hrk]
        · simp only [Store.keys] at hmem
          simp only [Store.put, if_neg hk, Store.keys, List.map_cons] at ih ⊢
          rw [ih]
          simp [hmem, hrk]

theorem Store.length_eq_keys_length (s : Store) :
    s.length = (Store.keys s).length := by
  simp [Store.keys]

theorem Store.keys_nodup_put (s : Store) (r : TweetItem)
    (h : (Store.keys s).Nodup) : (Store.keys (Store.put s r)).Nodup := by
  rw [Store.keys_put]
  by_cases hmem : r.id ∈ Store.keys s
  · simpa [hmem] using h
  · rw [if_neg hmem, List.nodup_append]
    refine ⟨h, List.nodup_singleton _, ?_⟩
    intro a ha hb
    simp only [List.mem_singleton] at hb
    exact hmem (hb ▸ ha)

/-- The keys after a bulk upsert into an empty-keyed accumulator: the
distinct ids in first-occurrence order. -/
theorem Store.keys_bulkPut_toFinset (s : Store) (items : List TweetItem) :
    (Store.keys (Store.bulkPut s items)).toFinset =
      (Store.keys s).toFinset ∪ (items.map TweetItem.id).toFinset := by
  induction items generalizing s with
  | nil => simp [Store.bulkPut]
  | cons r rest ih =>
      show (Store.keys (Store.bulkPut (Store.put s r) rest)).toFinset = _
      rw [ih, Store.keys_put]
      by_cases hmem : r.id ∈ Store.keys s
      · rw [if_pos hmem]
        ext a
        simp only [Finset.mem_union, List.mem_toFinset, List.map_cons,
          List.mem_cons]
        constructor
        · rintro (h | h)
          · exact Or.inl h
          · exact Or.inr (Or.inr h)
        · rintro (h | h | h)
          · exact Or.inl h
          · exact Or.inl (h ▸ hmem)
          · exact Or.inr h
      · rw [if_neg hmem]
        ext a
        simp only [Finset.mem_union, List.mem_toFinset, List.map_cons,
          List.mem_cons, List.mem_append, List.mem_singleton]
        tauto

theorem Store.keys_nodup_bulkPut (s : Store) (items : List TweetItem)
    (h : (Store.keys s).Nodup) :
    (Store.keys (Store.bulkPut s items)).Nodup := by
  induction items generalizing s with
  | nil => exact h
  | cons r rest ih =>
      exact ih (Store.put s r) (Store.keys_nodup_put s r h)

theorem Store.length_bulkPut_empty (items : List TweetItem) :
    (Store.bulkPut [] items).length = (items.map TweetItem.id).toFinset.card := by
  rw [Store.length_eq_keys_length]
  rw [← List.toFinset_card_of_nodup
    (Store.keys_nodup_bulkPut [] items (by simp [Store.keys]))]
  rw [Store.keys_bulkPut_toFinset]
  simp [Store.keys]

theorem Store.get_softDelete (s : Store) (i j : String) :
    Store.get (Store.softDelete s i) j =
      if i = j then (Store.get s j).map (fun v => { v with isDeleted := 1 })
      else Store.get s j := by
  induction s with
  | nil => simp [Store.softDelete, Store.get]
  | cons kv s ih =>
      obtain ⟨k, v⟩ := kv
      by_cases hk : k = i
      · by_cases hj : i = j
        · simp [Store.softDelete, Store.get, hk, hj, hk.symm ▸ hj]
        · have : ¬ k = j := fun h => hj (hk ▸ h)
          simp [Store.softDelete, Store.get, hk, hj, this]
      · by_cases hj : k = j
        · have hij : ¬ i = j := fun h => hk (by rw [hj, ← h])
          have hji : ¬ j = i := fun h => hk (hj.trans h)
          simp [Store.softDelete, Store.get, hk, hj, hij, hji]
        · simp [Store.softDelete, Store.get, hk, hj, ih]

/-! ## Importer lemmas -/

theorem id_normalizeEntry (e : Json) (now : Int) :
    (normalizeEntry e now).id = resolveId e := rfl

theorem isDeleted_normalizeEntry (e : Json) (now : Int) :
    (normalizeEntry e now).isDeleted = 0 := rfl

/-- Searching a reversed list finds the last match. -/
theorem find?_reverse_eq_getLast?_filter {α : Type} (l : List α) (p : α → Bool) :
    l.reverse.find? p = (l.filter p).getLast? := by
  have head : ∀ m : List α, m.find? p = (m.filter p).head? := by
    intro m
    induction m with
    | nil => rfl
    | cons a m ih =>
        by_cases h : p a = true
        · rw [List.find?_cons_of_pos _ h, List.filter_cons_of_pos h]
          rfl
        · rw [List.find?_cons_of_neg _ (by simp [h]),
            List.filter_cons_of_neg (by simp [h]), ih]
  rw [head, List.filter_reverse, List.head?_reverse]

/-- Records normalized from an entry carrying a timestamp do not depend
on the import time. -/
theorem normalizeEntry_time_indep (e : Json) (now1 now2 : Int)
    (hts : Json.truthy (e.get "createdAt") = true ∨
      Json.truthy (e.get "created_at") = true) :
    normalizeEntry e now1 = normalizeEntry e now2 := by
  have hdate : resolveDate e now1 = resolveDate e now2 := by
    by_cases h1 : Json.truthy (e.get "createdAt") = true
    · simp [resolveDate, h1]
    · have h2 : Json.truthy (e.get "created_at") = true := hts.resolve_left h1
      simp [resolveDate, h1, h2]
  simp [normalizeEntry, hdate]

/-! ## Claim C4: createdAt resolution -/

/-- C4 counterexample: the importer accepts an entry whose `createdAt`
is the unparseable string `"hello"` and stores a record whose
`createdAt` is the Invalid Date, so `createdAt` is not always a valid
point in time. -/
theorem claim_C4_counterexample :
    processTwillotJson "a.json" [Json.obj [("createdAt", Json.str "hello")]] 0 []
        = .ok (1, [("unknown_id",
            normalizeEntry (Json.obj [("createdAt", Json.str "hello")]) 0)]) ∧
    (normalizeEntry (Json.obj [("createdAt", Json.str "hello")]) 0).createdAt
        = none := by
  decide

/-- C4 (amended): the record's `createdAt` is never null and defaults to
the import time whenever the entry carries no (truthy) timestamp field;
a carried timestamp is resolved by the `Date` constructor, which yields
an Invalid Date for an unparseable string. -/
theorem claim_C4 (entry : Json) (now : Int)
    (h1 : Json.truthy (entry.get "createdAt") = false)
    (h2 : Json.truthy (entry.get "created_at") = false) :
    (normalizeEntry entry now).createdAt = some now := by
  show resolveDate entry now = some now
  simp [resolveDate, h1, h2]

theorem claim_C4_witness :
    (normalizeEntry (Json.obj [("full_text", Json.str "hi")]) 5).createdAt
      = some 5 :=
  claim_C4 (Json.obj [("full_text", Json.str "hi")]) 5 (by decide) (by decide)

/-! ## Claim C5: mediaUrl is the first media URL -/

/-- C5 counterexample: an entry of the internal-backup shape carrying an
inconsistent `mediaUrl`/`mediaUrls` pair is imported verbatim, so the
stored record has both fields defined, `mediaUrls` non-empty, and
`mediaUrls[0] ≠ mediaUrl`. -/
theorem claim_C5_counterexample :
    (normalizeEntry (Json.obj [("mediaUrls", Json.arr [Json.str "a"]),
        ("mediaUrl", Json.str "b")]) 0).mediaUrls = Json.arr [Json.str "a"] ∧
    (normalizeEntry (Json.obj [("mediaUrls", Json.arr [Json.str "a"]),
        ("mediaUrl", Json.str "b")]) 0).mediaUrl = Json.str "b" ∧
    arrFirst (normalizeEntry (Json.obj [("mediaUrls", Json.arr [Json.str "a"]),
        ("mediaUrl", Json.str "b")]) 0).mediaUrls ≠
      (normalizeEntry (Json.obj [("mediaUrls", Json.arr [Json.str "a"]),
        ("mediaUrl", Json.str "b")]) 0).mediaUrl := by
  decide

/-- C5 (amended): for every record whose entry does not supply its own
`mediaUrls` array (the internal-backup branch, which copies both fields
verbatim), the resolved `mediaUrl` is exactly the first element of the
resolved `mediaUrls`; in particular `mediaUrls[0] = mediaUrl` whenever
both are defined and `mediaUrls` is non-empty. -/
theorem claim_C5 (entry : Json) (now : Int)
    (h : (Json.truthy (entry.get "mediaUrls") &&
      Json.isArray (entry.get "mediaUrls")) = false) :
    (normalizeEntry entry now).mediaUrl
      = arrFirst (normalizeEntry entry now).mediaUrls := by
  show (resolveMedia entry).2.1 = arrFirst (resolveMedia entry).1
  unfold resolveMedia
  simp only [h, Bool.false_eq_true, if_false]
  split
  · rfl
  · split
    · split
      · rfl
      · rfl
    · rfl

theorem claim_C5_witness :
    (normalizeEntry (Json.obj [("media_items", Json.arr [Json.obj
        [("media_url_https", Json.str "u")]])]) 0).mediaUrl
      = arrFirst (normalizeEntry (Json.obj [("media_items", Json.arr [Json.obj
        [("media_url_https", Json.str "u")]])]) 0).mediaUrls :=
  claim_C5 (Json.obj [("media_items", Json.arr [Json.obj
    [("media_url_https", Json.str "u")]])]) 0 (by decide)

/-! ## Claim C9: every imported record is live, re-import restores -/

/-- C9: every record the importer produces carries `isDeleted = 0`, and
re-importing a file with an entry resolving to a soft-deleted record's
id leaves that id holding a record with `isDeleted = 0` (the upsert
restores it). -/
theorem claim_C9 :
    (∀ (e : Json) (now : Int), (normalizeEntry e now).isDeleted = 0) ∧
    (∀ (store : Store) (i fileName : String) (entries : List Json) (now : Int)
      (cnt : Nat) (st : Store),
      processTwillotJson fileName entries now (Store.softDelete store i)
        = .ok (cnt, st) →
      (∃ e ∈ entries, resolveId e = i) →
      ∃ r, Store.get st i = some r ∧ r.isDeleted = 0) := by
  refine ⟨fun e now => rfl, ?_⟩
  intro store i fileName entries now cnt st himp he
  obtain ⟨e, he1, he2⟩ := he
  unfold processTwillotJson at himp
  split at himp
  · exact absurd himp (by simp)
  · split at himp
    · exact absurd himp (by simp)
    · simp only [Except.ok.injEq, Prod.mk.injEq] at himp
      obtain ⟨-, hst⟩ := himp
      subst hst
      rw [Store.get_bulkPut]
      cases hf : (entries.map (fun e => normalizeEntry e now)).reverse.find?
          (fun r => r.id = i) with
      | none =>
          exfalso
          have : ((entries.map (fun e => normalizeEntry e now)).reverse.find?
              (fun r => r.id = i)).isSome := by
            rw [List.find?_isSome]
            refine ⟨normalizeEntry e now, ?_,
              by simp only [id_normalizeEntry, he2, decide_True]⟩
            simp only [List.mem_reverse, List.mem_map]
            exact ⟨e, he1, rfl⟩
          rw [hf] at this
          simp at this
      | some r =>
          have hmem := List.mem_of_find?_eq_some hf
          simp only [List.mem_reverse, List.mem_map] at hmem
          obtain ⟨e2, -, he2eq⟩ := hmem
          exact ⟨r, rfl, he2eq ▸ isDeleted_normalizeEntry e2 now⟩

theorem claim_C9_witness :
    ∃ r, Store.get (Store.bulkPut
        (Store.softDelete [("7", normalizeEntry (Json.obj [("id", Json.str "7")]) 0)] "7")
        [normalizeEntry (Json.obj [("tweet_id", Json.str "7")]) 1]) "7"
      = some r ∧ r.isDeleted = 0 :=
  claim_C9.2 [("7", normalizeEntry (Json.obj [("id", Json.str "7")]) 0)] "7"
    "b.json" [Json.obj [("tweet_id", Json.str "7")]] 1 1 _ (by decide)
    ⟨Json.obj [("tweet_id", Json.str "7")], by decide, by decide⟩

/-! ## Claim C10: duplicate ids within one file -/

/-- C10: when a file contains two entries resolving to the same id, the
store keeps exactly the record of the last such entry in file order,
while the reported count is the full entry count, which strictly
exceeds the number of stored records. -/
theorem claim_C10 (fileName : String) (entries : List Json) (now : Int)
    (hname : validFileName fileName = true)
    (hdup : ¬ (entries.map resolveId).Nodup) :
    ∃ st, processTwillotJson fileName entries now [] = .ok (entries.length, st) ∧
      st.length < entries.length ∧
      ∀ i, Store.get st i =
        ((entries.filter (fun e => resolveId e = i)).getLast?).map
          (fun e => normalizeEntry e now) := by
  have hne : ¬ entries.isEmpty = true := by
    intro h
    rw [List.isEmpty_iff] at h
    subst h
    exact hdup (by simp)
  refine ⟨Store.bulkPut [] (entries.map (fun e => normalizeEntry e now)), ?_, ?_, ?_⟩
  · unfold processTwillotJson
    rw [if_neg (by simp [hname]), if_neg hne]
    simp
  · rw [Store.length_bulkPut_empty]
    have hids : (entries.map (fun e => normalizeEntry e now)).map TweetItem.id
        = entries.map resolveId := by
      rw [List.map_map]
      rfl
    rw [hids, List.card_toFinset]
    have hsub := (entries.map resolveId).dedup_sublist
    have hle := hsub.length_le
    rcases lt_or_eq_of_le hle with hlt | heq
    · simpa using hlt
    · exfalso
      have : (entries.map resolveId).dedup = entries.map resolveId :=
        hsub.eq_of_length heq
      exact hdup (this ▸ (entries.map resolveId).nodup_dedup)
  · intro i
    rw [Store.get_bulkPut]
    rw [find?_reverse_eq_getLast?_filter]
    have hflt : (entries.map (fun e => normalizeEntry e now)).filter
        (fun r => r.id = i)
        = (entries.filter (fun e => resolveId e = i)).map
            (fun e => normalizeEntry e now) := by
      rw [List.filter_map]
      rfl
    rw [hflt, List.getLast?_map]
    cases (entries.filter (fun e => resolveId e = i)).getLast? <;> rfl

theorem claim_C10_witness :
    ∃ st, processTwillotJson "a.json"
        [Json.obj [("id", Json.str "1"), ("text", Json.str "x")],
         Json.obj [("id", Json.str "1"), ("text", Json.str "y")]] 0 []
      = .ok (2, st) ∧ st.length < 2 ∧
      ∀ i, Store.get st i =
        (([Json.obj [("id", Json.str "1"), ("text", Json.str "x")],
           Json.obj [("id", Json.str "1"), ("text", Json.str "y")]].filter
            (fun e => resolveId e = i)).getLast?).map
          (fun e => normalizeEntry e 0) :=
  claim_C10 "a.json"
    [Json.obj [("id", Json.str "1"), ("text", Json.str "x")],
     Json.obj [("id", Json.str "1"), ("text", Json.str "y")]] 0
    (by decide) (by decide)

/-! ## Claim C3: importing a file twice equals importing it once -/

/-- C3 counterexample: a valid file whose single entry carries no
timestamp field imports with `createdAt` equal to the wall-clock import
time, so importing it again one day later overwrites the record with a
different `createdAt` — the store after the second import differs from
the store after the first. -/
theorem claim_C3_counterexample :
    processTwillotJson "a.json" [Json.obj []] 0 []
        = .ok (1, [("unknown_id", normalizeEntry (Json.obj []) 0)]) ∧
    processTwillotJson "a.json" [Json.obj []] 86400000
        [("unknown_id", normalizeEntry (Json.obj []) 0)]
        = .ok (1, [("unknown_id", normalizeEntry (Json.obj []) 86400000)]) ∧
    normalizeEntry (Json.obj []) 86400000 ≠ normalizeEntry (Json.obj []) 0 := by
  decide

/-- C3 (amended): for every valid input file all of whose entries carry
a timestamp field, importing it twice (at import times `now1` and
`now2`) yields a store with exactly the same rows as importing it once:
every id maps to the same record, and the key column stays duplicate
free; without a timestamp, a re-import refreshes `createdAt` to the
later import time. -/
theorem claim_C3 (fileName : String) (entries : List Json) (now1 now2 : Int)
    (s : Store) (hname : validFileName fileName = true) (hne : entries ≠ [])
    (hts : ∀ e ∈ entries, Json.truthy (e.get "createdAt") = true ∨
      Json.truthy (e.get "created_at") = true) :
    ∃ st1 st2,
      processTwillotJson fileName entries now1 s = .ok (entries.length, st1) ∧
      processTwillotJson fileName entries now2 st1 = .ok (entries.length, st2) ∧
      (∀ i, Store.get st2 i = Store.get st1 i) ∧
      ((Store.keys s).Nodup → (Store.keys st2).Nodup) := by
  have hnee : ¬ entries.isEmpty = true := by
    simpa [List.isEmpty_iff] using hne
  have hmaps : entries.map (fun e => normalizeEntry e now2)
      = entries.map (fun e => normalizeEntry e now1) :=
    List.map_congr_left (fun e he => normalizeEntry_time_indep e now2 now1
      (hts e he))
  refine ⟨Store.bulkPut s (entries.map (fun e => normalizeEntry e now1)),
    Store.bulkPut (Store.bulkPut s (entries.map (fun e => normalizeEntry e now1)))
      (entries.map (fun e => normalizeEntry e now2)), ?_, ?_, ?_, ?_⟩
  · unfold processTwillotJson
    rw [if_neg (by simp [hname]), if_neg hnee]
    simp
  · unfold processTwillotJson
    rw [if_neg (by simp [hname]), if_neg hnee]
    simp
  · intro i
    rw [Store.get_bulkPut, Store.get_bulkPut, hmaps]
    cases (entries.map (fun e => normalizeEntry e now1)).reverse.find?
        (fun r => r.id = i) with
    | none => rfl
    | some r => rfl
  · intro hs
    exact Store.keys_nodup_bulkPut _ _ (Store.keys_nodup_bulkPut _ _ hs)

theorem claim_C3_witness :
    ∃ st1 st2,
      processTwillotJson "a.json" [Json.obj [("created_at", Json.num 1000)]] 3 []
        = .ok (1, st1) ∧
      processTwillotJson "a.json" [Json.obj [("created_at", Json.num 1000)]] 9 st1
        = .ok (1, st2) ∧
      (∀ i, Store.get st2 i = Store.get st1 i) ∧
      ((Store.keys ([] : Store)).Nodup → (Store.keys st2).Nodup) :=
  claim_C3 "a.json" [Json.obj [("created_at", Json.num 1000)]] 3 9 []
    (by decide) (by decide) (by decide)

/-! ## Archiver lemmas -/

/-- Successful fetches contributed by one candidate record. -/
def itemSuccesses (i : TweetItem) (f : Json → Bool) : Nat :=
  if Json.truthy i.videoUrl then (if f i.videoUrl then 1 else 0)
  else (imageUrls i).countP f

/-- Successful fetches over the whole candidate set. -/
def fetchSuccesses (items : List TweetItem) (f : Json → Bool) : Nat :=
  ((items.filter hasMedia).map (fun i => itemSuccesses i f)).sum

/-- The progress pairs appended by `n` consecutive unit completions
starting from processed count `p`. -/
def progFrom (p n t : Nat) : List (Nat × Nat) :=
  (List.range n).map (fun k => (p + 1 + k, t))

theorem Json.isArray_iff (j : Json) :
    Json.isArray j = true ↔ ∃ xs, j = Json.arr xs := by
  cases j <;> simp [Json.isArray]

theorem progFrom_succ (p n t : Nat) :
    progFrom p (n + 1) t = (p + 1, t) :: progFrom (p + 1) n t := by
  simp only [progFrom, List.range_succ_eq_map, List.map_cons, List.map_map,
    List.cons.injEq]
  refine ⟨by simp, ?_⟩
  apply List.map_congr_left
  intro k _
  simp only [Function.comp_apply, Nat.succ_eq_add_one, Prod.mk.injEq]
  exact ⟨by omega, trivial⟩

theorem progFrom_add (p a b t : Nat) :
    progFrom p (a + b) t = progFrom p a t ++ progFrom (p + a) b t := by
  simp only [progFrom, List.range_add, List.map_append, List.map_map]
  congr 1
  apply List.map_congr_left
  intro k _
  simp [Function.comp]
  omega

theorem foldl_processUnit (t : Nat) (f : Json → Bool) (urls : List Json)
    (st : ZipState) :
    urls.foldl (processUnit t f) st =
      { processed := st.processed + urls.length,
        success := st.success + urls.countP f,
        progress := st.progress ++ progFrom st.processed urls.length t } := by
  induction urls generalizing st with
  | nil =>
      simp [progFrom]
  | cons u us ih =>
      rw [List.foldl_cons, ih]
      simp only [processUnit, List.countP_cons, List.length_cons, progFrom_succ,
        ZipState.mk.injEq]
      refine ⟨by omega, ?_, by simp [List.append_assoc]⟩
      by_cases hf : f u = true <;> simp [hf]
      all_goals omega

theorem length_imageUrls (i : TweetItem)
    (h : Json.isArray i.mediaUrls = true ∨ i.mediaUrls = Json.undef)
    (hv : Json.truthy i.videoUrl = false) :
    (imageUrls i).length = unitCount i := by
  unfold imageUrls unitCount
  simp only [hv, Bool.false_eq_true, if_false]
  rcases h with h | h
  · obtain ⟨xs, hm⟩ := (Json.isArray_iff _).mp h
    rw [hm]
    by_cases hp : Json.lengthPos (Json.arr xs) = true
    · simp [hp, Json.elems, Json.jsLength]
    · by_cases hmu : Json.truthy i.mediaUrl = true <;> simp [hp, hmu]
  · rw [h]
    by_cases hmu : Json.truthy i.mediaUrl = true <;> simp [hmu]

theorem processItem_char (t : Nat) (f : Json → Bool) (st : ZipState)
    (i : TweetItem)
    (h : Json.isArray i.mediaUrls = true ∨ i.mediaUrls = Json.undef) :
    processItem t f st i =
      { processed := st.processed + unitCount i,
        success := st.success + itemSuccesses i f,
        progress := st.progress ++ progFrom st.processed (unitCount i) t } := by
  unfold processItem
  by_cases hv : Json.truthy i.videoUrl = true
  · rw [if_pos hv]
    by_cases hf : f i.videoUrl = true <;>
      simp [processUnit, unitCount, itemSuccesses, hv, hf, progFrom,
        List.range_succ]
  · rw [if_neg hv, foldl_processUnit]
    have hv2 : Json.truthy i.videoUrl = false := by simpa using hv
    simp only [ZipState.mk.injEq, length_imageUrls i h hv2]
    refine ⟨trivial, ?_, trivial⟩
    simp [itemSuccesses, hv2]

theorem foldl_processItem (t : Nat) (f : Json → Bool) (items : List TweetItem)
    (st : ZipState)
    (h : ∀ i ∈ items, Json.isArray i.mediaUrls = true ∨ i.mediaUrls = Json.undef) :
    items.foldl (processItem t f) st =
      { processed := st.processed + (items.map unitCount).sum,
        success := st.success + (items.map (fun i => itemSuccesses i f)).sum,
        progress := st.progress ++
          progFrom st.processed ((items.map unitCount).sum) t } := by
  induction items generalizing st with
  | nil => simp [progFrom]
  | cons i rest ih =>
      rw [List.foldl_cons, processItem_char t f st i (h i (by simp)),
        ih _ (fun j hj => h j (by simp [hj]))]
      simp only [List.map_cons, List.sum_cons, ZipState.mk.injEq]
      refine ⟨by omega, by omega, ?_⟩
      rw [List.append_assoc, ← progFrom_add]

/-! ## Claim C1: archiver progress reporting -/

/-- A neutral record with no media, used to build concrete archiver and
store scenarios. -/
def baseItem : TweetItem :=
  { id := "t", fullText := Json.str "", createdAt := some 0,
    authorHandle := Json.str "h", authorName := Json.str "n",
    avatarUrl := Json.undef, mediaUrl := Json.undef, mediaUrls := Json.undef,
    videoUrl := Json.undef, type := "bookmark", isDeleted := 0,
    jsonBlob := Json.obj [] }

/-- Five media units spread over four records: one video, two images,
one single `mediaUrl` image, one more image. -/
def c1Items : List TweetItem :=
  [{ baseItem with id := "a", videoUrl := Json.str "v1" },
   { baseItem with id := "b", mediaUrls := Json.arr [Json.str "i1", Json.str "i2"] },
   { baseItem with id := "c", mediaUrl := Json.str "i3" },
   { baseItem with id := "d", mediaUrls := Json.arr [Json.str "i4"] }]

/-- A fetch oracle failing exactly the two URLs `v1` and `i2`. -/
def c1Fetch : Json → Bool :=
  fun u => !(u == Json.str "v1" || u == Json.str "i2")

/-- C1 counterexample: for 5 media units of which 2 fetches fail, the
archiver does return `successCount = 3`, but `onProgress` is called 6
times, not 5: the code makes one extra initial `onProgress(0, total)`
call before any unit completes. -/
theorem claim_C1_counterexample :
    totalFiles c1Items = 5 ∧
    (downloadMediaZip c1Items c1Fetch).result = .ok 3 ∧
    (downloadMediaZip c1Items c1Fetch).progress.length = 6 := by
  decide

/-- C1 (amended): for every record set (with well-typed `mediaUrls`
columns) carrying `N > 0` media units, `onProgress` is invoked once
initially with `(0, N)` and then exactly once after each unit completes
(success or failure), with first arguments `0, 1, ..., N` —
monotonically increasing and ending at `N`, `N + 1` calls in total; the
call returns the number of successful fetches (`successCount`), or
throws only when that number is zero.  In particular 5 units with 2
failures return `successCount = 3`. -/
theorem claim_C1 (items : List TweetItem) (f : Json → Bool)
    (harr : ∀ i ∈ items, Json.isArray i.mediaUrls = true ∨ i.mediaUrls = Json.undef)
    (hpos : 0 < totalFiles items) :
    (downloadMediaZip items f).progress =
      (List.range (totalFiles items + 1)).map (fun k => (k, totalFiles items)) ∧
    (downloadMediaZip items f).result =
      (if fetchSuccesses items f = 0 then .error "Failed to download media."
       else .ok (fetchSuccesses items f)) := by
  have hout : downloadMediaZip items f =
      { result := (if fetchSuccesses items f = 0
            then .error "Failed to download media."
            else .ok (fetchSuccesses items f)),
        progress := (0, totalFiles items) ::
          progFrom 0 (totalFiles items) (totalFiles items),
        alerts := [] } := by
    unfold downloadMediaZip
    rw [if_neg (by omega)]
    rw [foldl_processItem _ f _ _
      (fun i hi => harr i (List.mem_of_mem_filter hi))]
    have hsum : ((items.filter hasMedia).map unitCount).sum
        = totalFiles items := rfl
    have hsucc : ((items.filter hasMedia).map (fun i => itemSuccesses i f)).sum
        = fetchSuccesses items f := rfl
    rw [hsum, hsucc]
    by_cases hz : fetchSuccesses items f = 0 <;> simp [hz]
  rw [hout]
  refine ⟨?_, rfl⟩
  show (0, totalFiles items) :: progFrom 0 (totalFiles items) (totalFiles items)
      = _
  rw [List.range_succ_eq_map, List.map_cons, List.map_map]
  congr 1
  simp only [progFrom]
  apply List.map_congr_left
  intro k _
  simp only [Function.comp_apply, Nat.succ_eq_add_one, Prod.mk.injEq]
  exact ⟨by omega, trivial⟩

theorem claim_C1_witness :
    (downloadMediaZip c1Items c1Fetch).progress =
      (List.range (totalFiles c1Items + 1)).map (fun k => (k, totalFiles c1Items)) ∧
    (downloadMediaZip c1Items c1Fetch).result =
      (if fetchSuccesses c1Items c1Fetch = 0 then .error "Failed to download media."
       else .ok (fetchSuccesses c1Items c1Fetch)) :=
  claim_C1 c1Items c1Fetch (by decide) (by decide)

/-! ## Claim C6: no candidate record carries media -/

/-- C6 counterexample: on a record set with no media references the
archiver completes normally with return value 0 (after showing the
alert); it does not throw a `NoMediaFound` error — the promise
resolves. -/
theorem claim_C6_counterexample :
    (downloadMediaZip [baseItem] (fun _ => true)).result = .ok 0 ∧
    (downloadMediaZip [baseItem] (fun _ => true)).alerts
      = ["No media found for this user."] := by
  decide

/-- C6 (amended): when no candidate record carries any media reference
(no `videoUrl`, no `mediaUrl`, and an empty or absent `mediaUrls`), the
archiver signals the no-media condition by alerting
`"No media found for this user."` and returning 0 before any download
or progress call, rather than throwing; only the all-downloads-failed
condition is a thrown error. -/
theorem claim_C6 (items : List TweetItem) (f : Json → Bool)
    (h : ∀ i ∈ items, Json.truthy i.videoUrl = false ∧
      Json.truthy i.mediaUrl = false ∧
      (i.mediaUrls = Json.undef ∨ i.mediaUrls = Json.arr [])) :
    downloadMediaZip items f =
      { result := .ok 0, progress := [],
        alerts := ["No media found for this user."] } := by
  have hfil : items.filter hasMedia = [] := by
    rw [List.filter_eq_nil_iff]
    intro i hi
    obtain ⟨hv, hm, hmu⟩ := h i hi
    rcases hmu with hmu | hmu <;>
      simp [hasMedia, hv, hm, hmu, Json.lengthPos, Json.jsLength]
  have htot : totalFiles items = 0 := by
    simp [totalFiles, hfil]
  unfold downloadMediaZip
  rw [if_pos htot]

theorem claim_C6_witness :
    downloadMediaZip [baseItem, { baseItem with id := "u", mediaUrls := Json.arr [] }]
        (fun _ => true) =
      { result := .ok 0, progress := [],
        alerts := ["No media found for this user."] } :=
  claim_C6 _ _ (by decide)

/-! ## Claim C7: best-video selection -/

/-- The first element attaining the maximal key (the spec's selection:
highest bitrate, ties broken by first occurrence). -/
def firstMaxBy {α : Type} (key : α → Int) : List α → Option α
  | [] => none
  | a :: l =>
      match firstMaxBy key l with
      | none => some a
      | some b => if key b > key a then some b else some a

theorem firstMaxBy_eq_none {α : Type} (key : α → Int) (l : List α) :
    firstMaxBy key l = none ↔ l = [] := by
  cases l with
  | nil => simp [firstMaxBy]
  | cons a l =>
      simp only [firstMaxBy]
      cases firstMaxBy key l with
      | none => simp
      | some b =>
          by_cases h : key b > key a <;> simp [h]

theorem firstMaxBy_mem {α : Type} (key : α → Int) :
    ∀ (l : List α) (b : α), firstMaxBy key l = some b → b ∈ l := by
  intro l
  induction l with
  | nil => intro b h; simp [firstMaxBy] at h
  | cons a l ih =>
      intro b h
      simp only [firstMaxBy] at h
      split at h
      · simp only [Option.some.injEq] at h
        simp [h]
      · rename_i c hf
        split at h <;> simp only [Option.some.injEq] at h
        · exact h ▸ List.mem_cons_of_mem a (ih c hf)
        · simp [h]

theorem firstMaxBy_le {α : Type} (key : α → Int) :
    ∀ (l : List α) (b : α), firstMaxBy key l = some b →
      ∀ v ∈ l, key v ≤ key b := by
  intro l
  induction l with
  | nil => intro b h; simp [firstMaxBy] at h
  | cons a l ih =>
      intro b h v hv
      simp only [firstMaxBy] at h
      split at h
      · rename_i hf
        have hl : l = [] := (firstMaxBy_eq_none key l).mp hf
        subst hl
        simp only [Option.some.injEq] at h
        simp only [List.mem_singleton] at hv
        rw [hv, h]
      · rename_i c hf
        rcases List.mem_cons.mp hv with hv | hv <;>
          split at h <;> simp only [Option.some.injEq] at h <;> subst h
        · rename_i hk; subst hv; omega
        · subst hv; exact le_refl _
        · exact ih c hf v hv
        · rename_i hk
          have := ih c hf v hv
          omega

theorem firstMaxBy_first {α : Type} (key : α → Int) :
    ∀ (l : List α) (b : α), firstMaxBy key l = some b →
      ∃ pre post, l = pre ++ b :: post ∧ ∀ v ∈ pre, key v < key b := by
  intro l
  induction l with
  | nil => intro b h; simp [firstMaxBy] at h
  | cons a l ih =>
      intro b h
      simp only [firstMaxBy] at h
      split at h
      · simp only [Option.some.injEq] at h
        exact ⟨[], l, by simp [h], by simp⟩
      · rename_i c hf
        split at h <;> simp only [Option.some.injEq] at h
        · rename_i hk
          subst h
          obtain ⟨pre, post, hl, hpre⟩ := ih c hf
          refine ⟨a :: pre, post, by simp [hl], ?_⟩
          intro v hv
          rcases List.mem_cons.mp hv with hv | hv
          · subst hv; omega
          · exact hpre v hv
        · exact ⟨[], l, by simp [h], by simp⟩

/-- The head of a descending stable sort is the first maximal element. -/
theorem head?_mergeSort_firstMax {α : Type} (key : α → Int) (l : List α) :
    (l.mergeSort (fun a b => decide (key b ≤ key a))).head? = firstMaxBy key l := by
  have htrans : ∀ a b c : α, (fun a b => decide (key b ≤ key a)) a b = true →
      (fun a b => decide (key b ≤ key a)) b c = true →
      (fun a b => decide (key b ≤ key a)) a c = true := by
    intro a b c hab hbc
    simp only [decide_eq_true_eq] at hab hbc ⊢
    omega
  have htotal : ∀ a b : α, ((fun a b => decide (key b ≤ key a)) a b ||
      (fun a b => decide (key b ≤ key a)) b a) = true := by
    intro a b
    simp only [Bool.or_eq_true, decide_eq_true_eq]
    omega
  induction l with
  | nil => simp [firstMaxBy]
  | cons a l ih =>
      obtain ⟨l₁, l₂, h₁, h₂, h₃⟩ := List.mergeSort_cons htrans htotal a l
      rw [h₁]
      cases l₁ with
      | nil =>
          simp only [List.nil_append, List.head?_cons, firstMaxBy]
          rw [h₂] at ih
          simp only [List.nil_append] at ih
          cases l₂ with
          | nil =>
              have hl : l = [] := by
                have hp := List.mergeSort_perm l (fun a b => decide (key b ≤ key a))
                rw [h₂] at hp
                exact hp.symm.eq_nil
              rw [hl]
              simp [firstMaxBy]
          | cons b l₂t =>
              simp only [List.head?_cons] at ih
              rw [← ih]
              have hsorted := List.sorted_mergeSort htrans htotal (a :: l)
              rw [h₁] at hsorted
              simp only [List.nil_append, List.pairwise_cons] at hsorted
              have hab := hsorted.1 b (by simp)
              simp only [decide_eq_true_eq] at hab
              have hnot : ¬ key b > key a := by omega
              simp [hnot]
      | cons c l₁t =>
          simp only [List.cons_append, List.head?_cons, firstMaxBy]
          rw [h₂] at ih
          simp only [List.cons_append, List.head?_cons] at ih
          rw [← ih]
          have hc := h₃ c (by simp)
          have hc2 : decide (key c ≤ key a) = false := by
            cases hd : decide (key c ≤ key a) <;> simp [hd] at hc ⊢
          simp only [decide_eq_false_iff_not] at hc2
          have hgt : key c > key a := by omega
          simp [hgt]

/-- The MPEG-4 variants of a variant list. -/
def mp4Variants (variants : List Json) : List Json :=
  variants.filter (fun v => v.get "content_type" = Json.str "video/mp4")

/-- C7: for every media item carrying a `video_info.variants` list,
`findBestVideo` returns no URL when no MPEG-4 variant exists, and
otherwise returns the `url` of the selected MPEG-4 variant, which is a
member of the MPEG-4 variants, has a bitrate at least as high as every
MPEG-4 variant, and is the first occurrence among those of maximal
bitrate (every earlier MPEG-4 variant has a strictly smaller bitrate). -/
theorem claim_C7 (m : Json) (info : List (String × Json))
    (variants : List Json)
    (h1 : m.get "video_info" = Json.obj info)
    (h2 : (Json.obj info).get "variants" = Json.arr variants) :
    (mp4Variants variants = [] → findBestVideo m = Json.undef) ∧
    (∀ b, firstMaxBy bitrateOf (mp4Variants variants) = some b →
      findBestVideo m = b.get "url" ∧
      b ∈ mp4Variants variants ∧
      (∀ v ∈ mp4Variants variants, bitrateOf v ≤ bitrateOf b) ∧
      ∃ pre post, mp4Variants variants = pre ++ b :: post ∧
        ∀ v ∈ pre, bitrateOf v < bitrateOf b) := by
  have hfb : findBestVideo m =
      (match firstMaxBy bitrateOf (mp4Variants variants) with
        | some b => b.get "url"
        | none => Json.undef) := by
    unfold findBestVideo
    rw [h1]
    rw [show Json.jsOr (Json.obj info)
        (if m.get "type" = Json.str "video" then m else Json.null)
        = Json.obj info from by simp [Json.jsOr]]
    simp only []
    rw [h2]
    rw [if_pos (by simp)]
    show (match (((Json.arr variants).elems.filter
        (fun v => v.get "content_type" = Json.str "video/mp4")).mergeSort
        (fun a b => decide (bitrateOf b ≤ bitrateOf a))).head? with
      | some best => best.get "url"
      | none => Json.undef) = _
    rw [show (Json.arr variants).elems = variants from rfl,
      head?_mergeSort_firstMax]
    rfl
  constructor
  · intro hmp
    rw [hfb, hmp]
    rfl
  · intro b hb
    exact ⟨by rw [hfb, hb], firstMaxBy_mem _ _ _ hb, firstMaxBy_le _ _ _ hb,
      firstMaxBy_first _ _ _ hb⟩

/-- A non-MP4 variant carrying a URL. -/
def c7hls : Json :=
  Json.obj [("content_type", Json.str "application/x-mpegURL"),
    ("url", Json.str "hls")]

/-- A low-bitrate MP4 variant. -/
def c7lo : Json :=
  Json.obj [("content_type", Json.str "video/mp4"), ("bitrate", Json.num 100),
    ("url", Json.str "lo")]

/-- A high-bitrate MP4 variant. -/
def c7hi : Json :=
  Json.obj [("content_type", Json.str "video/mp4"), ("bitrate", Json.num 200),
    ("url", Json.str "hi")]

/-- A media item with a three-variant `video_info`. -/
def c7item : Json :=
  Json.obj [("video_info",
    Json.obj [("variants", Json.arr [c7hls, c7lo, c7hi])])]

theorem claim_C7_witness :
    findBestVideo c7item = c7hi.get "url" ∧
    c7hi ∈ mp4Variants [c7hls, c7lo, c7hi] ∧
    (∀ v ∈ mp4Variants [c7hls, c7lo, c7hi], bitrateOf v ≤ bitrateOf c7hi) ∧
    ∃ pre post, mp4Variants [c7hls, c7lo, c7hi] = pre ++ c7hi :: post ∧
      ∀ v ∈ pre, bitrateOf v < bitrateOf c7hi :=
  (claim_C7 c7item [("variants", Json.arr [c7hls, c7lo, c7hi])]
    [c7hls, c7lo, c7hi] (by decide) (by decide)).2 c7hi (by decide)

/-! ## Claim C8: streak and gap statistics -/

/-- The consecutive integers `s, s+1, ..., s+n-1`. -/
def consecFrom (s : Int) (n : Nat) : List Int :=
  (List.range n).map (fun (j : Nat) => s + (j : Int))

/-- A streak: `k` consecutive calendar days starting at `s`, all of them
active (members of the active-day list). -/
def IsRun (l : List Int) (s : Int) (k : Nat) : Prop :=
  ∀ j : Nat, j < k → s + (j : Int) ∈ l

/-- The best streak reachable from a current run of length `cur` ending
on day `p`, over the remaining active days. -/
def bestFrom (p : Int) (cur : Nat) : List Int → Nat
  | [] => cur
  | d :: rest => if d - p = 1 then bestFrom d (cur + 1) rest
                 else max cur (bestFrom d 1 rest)

theorem bestFrom_ge : ∀ (rest : List Int) (p : Int) (cur : Nat),
    cur ≤ bestFrom p cur rest := by
  intro rest
  induction rest with
  | nil => intro p cur; exact le_refl _
  | cons d rest ih =>
      intro p cur
      unfold bestFrom
      by_cases h : d - p = 1
      · rw [if_pos h]
        exact le_trans (Nat.le_succ cur) (ih d (cur + 1))
      · rw [if_neg h]
        exact Nat.le_max_left _ _

theorem scan_go : ∀ (rest : List Int) (mx cur : Nat) (p : Int), cur ≤ mx →
    (rest.foldl streakStep (mx, cur, some p)).1 = max mx (bestFrom p cur rest) := by
  intro rest
  induction rest with
  | nil =>
      intro mx cur p h
      simp only [List.foldl_nil, bestFrom]
      omega
  | cons d rest ih =>
      intro mx cur p h
      rw [List.foldl_cons]
      by_cases hd : d - p = 1
      · have hstep : streakStep (mx, cur, some p) d
            = (max mx (cur + 1), cur + 1, some d) := by
          simp [streakStep, hd]
        rw [hstep, ih _ _ _ (Nat.le_max_right _ _)]
        have hge := bestFrom_ge rest d (cur + 1)
        simp only [bestFrom, hd, if_pos]
        omega
      · have hstep : streakStep (mx, cur, some p) d
            = (max mx 1, 1, some d) := by
          simp [streakStep, hd]
        rw [hstep, ih _ _ _ (Nat.le_max_right _ _)]
        have hge := bestFrom_ge rest d 1
        simp only [bestFrom, hd, if_neg, if_false]
        omega

theorem maxStreakScan_cons (d : Int) (rest : List Int) :
    maxStreakScan (d :: rest) = bestFrom d 1 rest := by
  unfold maxStreakScan
  rw [List.foldl_cons]
  have hstep : streakStep (0, 0, none) d = (1, 1, some d) := rfl
  rw [hstep, scan_go rest 1 1 d (le_refl 1)]
  have := bestFrom_ge rest d 1
  omega

theorem mem_consecFrom (s : Int) (n : Nat) (x : Int) :
    x ∈ consecFrom s n ↔ s ≤ x ∧ x < s + n := by
  simp only [consecFrom, List.mem_map, List.mem_range]
  constructor
  · rintro ⟨j, hj, rfl⟩
    omega
  · rintro ⟨h1, h2⟩
    refine ⟨(x - s).toNat, by omega, by omega⟩

theorem consecFrom_snoc (s : Int) (n : Nat) :
    consecFrom s (n + 1) = consecFrom s n ++ [s + n] := by
  simp [consecFrom, List.range_succ]

theorem nodup_consecFrom (s : Int) (n : Nat) : (consecFrom s n).Nodup := by
  refine List.Nodup.map ?_ (List.nodup_range n)
  intro a b hab
  have hab2 : s + (a : Int) = s + (b : Int) := hab
  omega

theorem length_consecFrom (s : Int) (n : Nat) : (consecFrom s n).length = n := by
  simp [consecFrom]

theorem IsRun_le_length (l : List Int) (s : Int) (k : Nat)
    (h : IsRun l s k) : k ≤ l.length := by
  have hsub : ∀ x ∈ consecFrom s k, x ∈ l := by
    intro x hx
    rw [mem_consecFrom] at hx
    have := h (x - s).toNat (by omega)
    have hxe : s + ((x - s).toNat : Int) = x := by omega
    rwa [hxe] at this
  calc k = (consecFrom s k).toFinset.card := by
            rw [List.toFinset_card_of_nodup (nodup_consecFrom s k),
              length_consecFrom]
    _ ≤ l.toFinset.card := by
          apply Finset.card_le_card
          intro x hx
          rw [List.mem_toFinset] at hx ⊢
          exact hsub x hx
    _ ≤ l.length := l.toFinset_card_le

/-- The scan value `bestFrom p cur rest` is exactly the longest streak
of the day list made of a length-`cur` run ending at `p` followed by
the remaining days. -/
theorem bestFrom_spec : ∀ (rest : List Int) (p : Int) (cur : Nat), 1 ≤ cur →
    (consecFrom (p - cur + 1) cur ++ rest).Pairwise (· < ·) →
    (∃ s, IsRun (consecFrom (p - cur + 1) cur ++ rest) s (bestFrom p cur rest)) ∧
    (∀ s k, IsRun (consecFrom (p - cur + 1) cur ++ rest) s k →
      k ≤ bestFrom p cur rest) := by
  intro rest
  induction rest with
  | nil =>
      intro p cur hcur hpw
      simp only [List.append_nil] at *
      simp only [bestFrom]
      constructor
      · refine ⟨p - cur + 1, ?_⟩
        intro j hj
        rw [mem_consecFrom]
        omega
      · intro s k h
        have hlen := IsRun_le_length _ _ _ h
        rwa [length_consecFrom] at hlen
  | cons d rest ih =>
      intro p cur hcur hpw
      by_cases hd : d - p = 1
      · have harith : p - cur + 1 + (cur : Int) = d := by omega
        have hveq : consecFrom (p - cur + 1) cur ++ d :: rest
            = consecFrom (d - ((cur + 1 : Nat) : Int) + 1) (cur + 1) ++ rest := by
          have h2 : d - ((cur + 1 : Nat) : Int) + 1 = p - cur + 1 := by
            push_cast
            omega
          rw [h2, consecFrom_snoc, harith, List.append_assoc,
            List.singleton_append]
        rw [hveq] at hpw ⊢
        have hres := ih d (cur + 1) (by omega) hpw
        unfold bestFrom
        rw [if_pos hd]
        exact hres
      · have hparts := List.pairwise_append.mp hpw
        have hlt := hparts.2.2
        have hpmem : p ∈ consecFrom (p - cur + 1) cur := by
          rw [mem_consecFrom]
          omega
        have hpd : p < d := hlt p hpmem d (by simp)
        have hd2 : p + 2 ≤ d := by omega
        have hA_le : ∀ x ∈ consecFrom (p - cur + 1) cur, x ≤ p := by
          intro x hx
          rw [mem_consecFrom] at hx
          omega
        have hB_ge : ∀ x ∈ (d :: rest), d ≤ x := by
          intro x hx
          rcases List.mem_cons.mp hx with rfl | hx
          · exact le_refl _
          · exact le_of_lt ((List.pairwise_cons.mp hparts.2.1).1 x hx)
        have hdvirt : consecFrom (d - ((1 : Nat) : Int) + 1) 1 ++ rest
            = d :: rest := by
          have h1 : d - ((1 : Nat) : Int) + 1 = d := by push_cast; omega
          rw [h1]
          simp [consecFrom, List.range_succ]
        have hrec := ih d 1 (le_refl 1)
          (by rw [hdvirt]; exact hparts.2.1)
        rw [hdvirt] at hrec
        unfold bestFrom
        rw [if_neg hd]
        constructor
        · rcases Nat.le_total (bestFrom d 1 rest) cur with hle | hle
          · refine ⟨p - cur + 1, ?_⟩
            intro j hj
            rw [Nat.max_eq_left hle] at hj
            apply List.mem_append_left
            rw [mem_consecFrom]
            omega
          · obtain ⟨s, hs⟩ := hrec.1
            refine ⟨s, ?_⟩
            intro j hj
            rw [Nat.max_eq_right hle] at hj
            exact List.mem_append_right _ (hs j hj)
        · intro s k h
          rcases Nat.eq_zero_or_pos k with rfl | hk
          · exact Nat.zero_le _
          by_cases hcase : s + (k : Int) - 1 ≤ p
          · have hsub : IsRun (consecFrom (p - cur + 1) cur) s k := by
              intro j hj
              have hmem := h j hj
              rcases List.mem_append.mp hmem with hmem | hmem
              · exact hmem
              · exfalso
                have := hB_ge _ hmem
                omega
            have hlen := IsRun_le_length _ _ _ hsub
            rw [length_consecFrom] at hlen
            exact le_trans hlen (Nat.le_max_left _ _)
          · by_cases hs2 : p + 1 ≤ s
            · have hsub : IsRun (d :: rest) s k := by
                intro j hj
                have hmem := h j hj
                rcases List.mem_append.mp hmem with hmem | hmem
                · exfalso
                  have := hA_le _ hmem
                  omega
                · exact hmem
              exact le_trans (hrec.2 s k hsub) (Nat.le_max_right _ _)
            · exfalso
              have hmem := h (p + 1 - s).toNat (by omega)
              have hval : s + (((p + 1 - s).toNat : Nat) : Int) = p + 1 := by
                omega
              rw [hval] at hmem
              rcases List.mem_append.mp hmem with hmem | hmem
              · have := hA_le _ hmem
                omega
              · have := hB_ge _ hmem
                omega

/-- The gap loop body as a named fold. -/
def gapFold (a : Int) (xs : List (Int × Int)) : Int :=
  xs.foldl (fun mx p => if p.2 - p.1 > mx then p.2 - p.1 else mx) a

theorem maxGapScan_eq (l : List Int) :
    maxGapScan l =
      (if (if l.length > 1 then gapFold 0 (l.zip l.tail) else 0) > 0
       then (if l.length > 1 then gapFold 0 (l.zip l.tail) else 0) - 1
       else 0) := rfl

theorem gapFold_spec : ∀ (xs : List (Int × Int)) (a : Int),
    a ≤ gapFold a xs ∧
    (∀ p ∈ xs, p.2 - p.1 ≤ gapFold a xs) ∧
    (gapFold a xs = a ∨ ∃ p ∈ xs, gapFold a xs = p.2 - p.1) := by
  intro xs
  induction xs with
  | nil =>
      intro a
      exact ⟨le_refl _, by simp, Or.inl rfl⟩
  | cons q xs ih =>
      intro a
      have hstep : gapFold a (q :: xs)
          = gapFold (if q.2 - q.1 > a then q.2 - q.1 else a) xs := rfl
      set a2 := if q.2 - q.1 > a then q.2 - q.1 else a with ha2
      obtain ⟨h1, h2, h3⟩ := ih a2
      rw [hstep]
      refine ⟨?_, ?_, ?_⟩
      · have : a ≤ a2 := by rw [ha2]; split <;> omega
        omega
      · intro p hp
        rcases List.mem_cons.mp hp with rfl | hp
        · have : p.2 - p.1 ≤ a2 := by rw [ha2]; split <;> omega
          omega
        · exact h2 p hp
      · rcases h3 with h3 | ⟨p, hp, h3⟩
        · by_cases hq : q.2 - q.1 > a
          · exact Or.inr ⟨q, by simp, h3.trans (by rw [ha2, if_pos hq])⟩
          · exact Or.inl (h3.trans (by rw [ha2, if_neg hq]))
        · exact Or.inr ⟨p, List.mem_cons_of_mem q hp, h3⟩

theorem adjacent_lt : ∀ (l : List Int), l.Pairwise (· < ·) →
    ∀ p ∈ l.zip l.tail, p.1 < p.2 := by
  intro l
  induction l with
  | nil => simp
  | cons a l ih =>
      intro hpw p hp
      cases l with
      | nil => simp at hp
      | cons b t =>
          simp only [List.tail_cons, List.zip_cons_cons] at hp
          rcases List.mem_cons.mp hp with rfl | hp
          · exact (List.pairwise_cons.mp hpw).1 b (by simp)
          · exact ih (List.pairwise_cons.mp hpw).2 p
              (by simpa [List.tail_cons] using hp)

/-- C8: over the ascending list of active day numbers, the longest
streak computed by the scan is exactly the length of the longest run of
consecutive active days (it is attained, and no streak exceeds it; a
single active day yields 1), and the longest gap is the maximum
day-difference between consecutive active days minus 1, and 0 when
fewer than two days are active; in particular, for active days
2024-01-01, 01-02, 01-03 and 01-10 the longest streak is 3 and the
longest gap is 6. -/
theorem claim_C8 (l : List Int) (hsort : l.Pairwise (· < ·)) :
    (maxStreakScan [daysFromCivil 2024 1 1, daysFromCivil 2024 1 2,
        daysFromCivil 2024 1 3, daysFromCivil 2024 1 10] = 3 ∧
     maxGapScan [daysFromCivil 2024 1 1, daysFromCivil 2024 1 2,
        daysFromCivil 2024 1 3, daysFromCivil 2024 1 10] = 6) ∧
    (∀ d : Int, maxStreakScan [d] = 1) ∧
    (l ≠ [] → 1 ≤ maxStreakScan l) ∧
    (∃ s, IsRun l s (maxStreakScan l)) ∧
    (∀ s k, IsRun l s k → k ≤ maxStreakScan l) ∧
    (l.length < 2 → maxGapScan l = 0) ∧
    (∀ p ∈ l.zip l.tail, p.2 - p.1 - 1 ≤ maxGapScan l) ∧
    (2 ≤ l.length → ∃ p ∈ l.zip l.tail, maxGapScan l = p.2 - p.1 - 1) := by
  have hvirt : ∀ (d : Int) (rest : List Int),
      consecFrom (d - ((1 : Nat) : Int) + 1) 1 ++ rest = d :: rest := by
    intro d rest
    have h1 : d - ((1 : Nat) : Int) + 1 = d := by push_cast; omega
    rw [h1]
    simp [consecFrom, List.range_succ]
  refine ⟨⟨by decide, by decide⟩, ?_, ?_, ?_, ?_, ?_, ?_, ?_⟩
  · intro d
    rfl
  · intro hne
    cases l with
    | nil => exact absurd rfl hne
    | cons d rest =>
        rw [maxStreakScan_cons]
        exact bestFrom_ge rest d 1
  · cases l with
    | nil => exact ⟨0, fun j hj => by simp [maxStreakScan] at hj⟩
    | cons d rest =>
        rw [maxStreakScan_cons]
        have hspec := bestFrom_spec rest d 1 (le_refl 1)
          (by rw [hvirt]; exact hsort)
        rw [hvirt] at hspec
        exact hspec.1
  · cases l with
    | nil =>
        intro s k h
        rcases Nat.eq_zero_or_pos k with rfl | hk
        · exact Nat.zero_le _
        · exact absurd (h 0 hk) (by simp)
    | cons d rest =>
        rw [maxStreakScan_cons]
        have hspec := bestFrom_spec rest d 1 (le_refl 1)
          (by rw [hvirt]; exact hsort)
        rw [hvirt] at hspec
        exact hspec.2
  · intro hlen
    rw [maxGapScan_eq, if_neg (show ¬ l.length > 1 by omega)]
    simp
  · intro p hp
    have hlen2 : 1 < l.length := by
      by_contra hcon
      have hzip : l.zip l.tail = [] := by
        cases l with
        | nil => rfl
        | cons a t =>
            cases t with
            | nil => rfl
            | cons b t2 => simp at hcon
      rw [hzip] at hp
      simp at hp
    obtain ⟨hge, hall, -⟩ := gapFold_spec (l.zip l.tail) 0
    have hdiff := hall p hp
    rw [maxGapScan_eq, if_pos hlen2]
    by_cases hpos : gapFold 0 (l.zip l.tail) > 0
    · rw [if_pos hpos]
      omega
    · rw [if_neg hpos]
      omega
  · intro hlen
    have hlen2 : 1 < l.length := by omega
    have hzipne : l.zip l.tail ≠ [] := by
      intro hz
      have := List.length_zip l l.tail
      rw [hz] at this
      simp only [List.length_nil] at this
      rw [List.length_tail] at this
      omega
    obtain ⟨q, hq⟩ := List.exists_mem_of_ne_nil _ hzipne
    have hq1 := adjacent_lt l hsort q hq
    obtain ⟨hge, hall, hmem⟩ := gapFold_spec (l.zip l.tail) 0
    have hqle := hall q hq
    have hpos : gapFold 0 (l.zip l.tail) > 0 := by omega
    rcases hmem with hmem | ⟨p, hp, hmem⟩
    · omega
    · refine ⟨p, hp, ?_⟩
      rw [maxGapScan_eq, if_pos hlen2, if_pos (by omega)]
      omega

theorem claim_C8_witness :
    (maxStreakScan [daysFromCivil 2024 1 1, daysFromCivil 2024 1 2,
        daysFromCivil 2024 1 3, daysFromCivil 2024 1 10] = 3 ∧
     maxGapScan [daysFromCivil 2024 1 1, daysFromCivil 2024 1 2,
        daysFromCivil 2024 1 3, daysFromCivil 2024 1 10] = 6) ∧
    ∃ s, IsRun [(0 : Int), 1, 2, 9] s
      (maxStreakScan [(0 : Int), 1, 2, 9]) :=
  ⟨(claim_C8 [(0 : Int), 1, 2, 9] (by decide)).1,
   (claim_C8 [(0 : Int), 1, 2, 9] (by decide)).2.2.2.1⟩

/-! ## Claim C2: JSON export / import round trip -/

/-- A stored date that survives the ISO-string round trip: it is a
valid instant whose millisecond value is recovered by parsing its
`toISOString` rendering (true of every real timestamp in the
representable year range). -/
def dateStable : JsDate → Prop
  | some ms => parseISO (toISOString ms) = some ms
  | none => False

instance : (d : JsDate) → Decidable (dateStable d)
  | some ms => decidable_of_iff (parseISO (toISOString ms) = some ms) Iff.rfl
  | none => isFalse id

theorem toISOString_ne_empty (ms : Int) : toISOString ms ≠ "" := by
  intro h
  have hd := congrArg String.data h
  simp [toISOString, pad4, pad3, pad2] at hd

theorem truthy_str_iff (s : String) :
    Json.truthy (Json.str s) = true ↔ s ≠ "" := by
  simp [Json.truthy]

theorem keys_jnormFields_sub (fs : List (String × Json)) :
    ∀ k1, k1 ∈ (jnormFields fs).map Prod.fst → k1 ∈ fs.map Prod.fst := by
  induction fs with
  | nil => simp [jnormFields]
  | cons f fs ih =>
      intro k1 hk1
      obtain ⟨k, v⟩ := f
      by_cases hv : v = Json.undef
      · rw [show jnormFields ((k, v) :: fs) = jnormFields fs from by
          simp [jnormFields, hv]] at hk1
        exact List.mem_cons_of_mem _ (ih k1 hk1)
      · rw [show jnormFields ((k, v) :: fs) = (k, jnorm v) :: jnormFields fs from by
          simp [jnormFields, hv]] at hk1
        simp only [List.map_cons, List.mem_cons] at hk1 ⊢
        rcases hk1 with hk1 | hk1
        · exact Or.inl hk1
        · exact Or.inr (ih k1 hk1)

theorem get_obj_cons_hit (k : String) (v : Json) (fs : List (String × Json)) :
    (Json.obj ((k, v) :: fs)).get k = v := by
  simp [Json.get, List.find?_cons]

theorem get_obj_cons_miss (k1 k : String) (v : Json)
    (fs : List (String × Json)) (h : k1 ≠ k) :
    (Json.obj ((k1, v) :: fs)).get k = (Json.obj fs).get k := by
  simp [Json.get, List.find?_cons, h]

theorem get_obj_nil (k : String) : (Json.obj []).get k = Json.undef := rfl

theorem get_obj_miss (fs : List (String × Json)) (k : String)
    (h : ∀ k1 ∈ fs.map Prod.fst, k1 ≠ k) : (Json.obj fs).get k = Json.undef := by
  induction fs with
  | nil => rfl
  | cons f fs ih =>
      obtain ⟨k1, v1⟩ := f
      rw [get_obj_cons_miss k1 k v1 fs (h k1 (by simp))]
      exact ih (fun k2 hk2 => h k2 (by simp [hk2]))

theorem get_obj_jnormFields (fs : List (String × Json))
    (hnd : (fs.map Prod.fst).Nodup) (k : String) :
    (Json.obj (jnormFields fs)).get k =
      (if (Json.obj fs).get k = Json.undef then Json.undef
       else jnorm ((Json.obj fs).get k)) := by
  induction fs with
  | nil => simp [jnormFields, get_obj_nil]
  | cons f fs ih =>
      obtain ⟨k1, v1⟩ := f
      simp only [List.map_cons, List.nodup_cons] at hnd
      by_cases hk : k1 = k
      · subst hk
        rw [get_obj_cons_hit]
        by_cases hv : v1 = Json.undef
        · rw [show jnormFields ((k1, v1) :: fs) = jnormFields fs from by
            simp [jnormFields, hv]]
          rw [if_pos hv]
          apply get_obj_miss
          intro k2 hk2 hk2e
          exact hnd.1 (hk2e ▸ keys_jnormFields_sub fs k2 hk2)
        · rw [show jnormFields ((k1, v1) :: fs) = (k1, jnorm v1) :: jnormFields fs
              from by simp [jnormFields, hv]]
          rw [if_neg hv, get_obj_cons_hit]
      · rw [get_obj_cons_miss k1 k v1 fs hk]
        by_cases hv : v1 = Json.undef
        · rw [show jnormFields ((k1, v1) :: fs) = jnormFields fs from by
            simp [jnormFields, hv]]
          exact ih hnd.2
        · rw [show jnormFields ((k1, v1) :: fs) = (k1, jnorm v1) :: jnormFields fs
              from by simp [jnormFields, hv]]
          rw [get_obj_cons_miss k1 k (jnorm v1) (jnormFields fs) hk]
          exact ih hnd.2

/-- Well-formedness of a stored record, as established by the importer
for every record it writes: a non-degenerate id, truthy-or-empty text,
a round-trippable valid timestamp, truthy attribution, an absent or
truthy avatar, an array `mediaUrls` column, stringify-stable field
values, and a bookmark/like category. -/
def WFitem (r : TweetItem) : Prop :=
  r.id ≠ "" ∧
  jsStartsWith r.id "bookmark_" = false ∧
  (Json.truthy r.fullText = true ∨ r.fullText = Json.str "") ∧
  jnorm r.fullText = r.fullText ∧
  dateStable r.createdAt ∧
  Json.truthy r.authorHandle = true ∧
  jnorm r.authorHandle = r.authorHandle ∧
  Json.truthy r.authorName = true ∧
  jnorm r.authorName = r.authorName ∧
  (r.avatarUrl = Json.undef ∨ Json.truthy r.avatarUrl = true) ∧
  jnorm r.avatarUrl = r.avatarUrl ∧
  jnorm r.mediaUrl = r.mediaUrl ∧
  Json.isArray r.mediaUrls = true ∧
  jnorm r.mediaUrls = r.mediaUrls ∧
  jnorm r.videoUrl = r.videoUrl ∧
  (r.type = "bookmark" ∨ r.type = "like")

theorem get_itemToJson (r : TweetItem) (k : String) :
    (itemToJson r).get k =
      (if (Json.obj (exportFields r)).get k = Json.undef then Json.undef
       else jnorm ((Json.obj (exportFields r)).get k)) := by
  rw [show itemToJson r = Json.obj (jnormFields (exportFields r)) from rfl]
  refine get_obj_jnormFields (exportFields r) ?_ k
  rw [show (exportFields r).map Prod.fst
      = ["id", "fullText", "createdAt", "authorHandle", "authorName",
         "avatarUrl", "mediaUrl", "mediaUrls", "videoUrl", "type",
         "isDeleted", "jsonBlob"] from rfl]
  decide

/-- Re-importing one exported well-formed live record reproduces the
record exactly, except that its raw payload becomes the exported record
object itself. -/
theorem reimport_item (r : TweetItem) (now : Int) (hwf : WFitem r)
    (h0 : r.isDeleted = 0) :
    normalizeEntry (itemToJson r) now = { r with jsonBlob := itemToJson r } := by
  obtain ⟨hid, hbm, hft, hftn, hdate, hah, hahn, han, hann, hav, havn,
    hmun, harr, hmusn, hvun, hty⟩ := hwf
  cases hca : r.createdAt with
  | none =>
      rw [hca] at hdate
      exact absurd hdate id
  | some ms =>
  rw [hca] at hdate
  have hparse : parseISO (toISOString ms) = some ms := hdate
  have g := get_itemToJson r
  have gmiss : ∀ k, (Json.obj (exportFields r)).get k = Json.undef →
      (itemToJson r).get k = Json.undef := by
    intro k hk
    rw [g k, if_pos hk]
  have g_id : (itemToJson r).get "id" = Json.str r.id := by
    rw [g "id", show (Json.obj (exportFields r)).get "id" = Json.str r.id
      from rfl]
    rw [if_neg (by simp)]
    rfl
  have hftne : r.fullText ≠ Json.undef := by
    rcases hft with hft | hft
    · intro h
      rw [h] at hft
      simp at hft
    · intro h
      rw [hft] at h
      exact Json.noConfusion h
  have g_ft : (itemToJson r).get "fullText" = r.fullText := by
    rw [g "fullText", show (Json.obj (exportFields r)).get "fullText"
      = r.fullText from rfl, if_neg hftne, hftn]
  have g_ca : (itemToJson r).get "createdAt" = Json.str (toISOString ms) := by
    rw [g "createdAt", show (Json.obj (exportFields r)).get "createdAt"
      = dateJson r.createdAt from rfl, hca,
      show dateJson (some ms) = Json.str (toISOString ms) from rfl,
      if_neg (by simp)]
    rfl
  have hahne : r.authorHandle ≠ Json.undef := by
    intro h
    rw [h, Json.truthy_undef] at hah
    exact Bool.noConfusion hah
  have g_ah : (itemToJson r).get "authorHandle" = r.authorHandle := by
    rw [g "authorHandle", show (Json.obj (exportFields r)).get "authorHandle"
      = r.authorHandle from rfl, if_neg hahne, hahn]
  have hanne : r.authorName ≠ Json.undef := by
    intro h
    rw [h, Json.truthy_undef] at han
    exact Bool.noConfusion han
  have g_an : (itemToJson r).get "authorName" = r.authorName := by
    rw [g "authorName", show (Json.obj (exportFields r)).get "authorName"
      = r.authorName from rfl, if_neg hanne, hann]
  have g_av : (itemToJson r).get "avatarUrl" = r.avatarUrl := by
    rw [g "avatarUrl", show (Json.obj (exportFields r)).get "avatarUrl"
      = r.avatarUrl from rfl]
    by_cases h : r.avatarUrl = Json.undef
    · rw [if_pos h, h]
    · rw [if_neg h, havn]
  have g_mu : (itemToJson r).get "mediaUrl" = r.mediaUrl := by
    rw [g "mediaUrl", show (Json.obj (exportFields r)).get "mediaUrl"
      = r.mediaUrl from rfl]
    by_cases h : r.mediaUrl = Json.undef
    · rw [if_pos h, h]
    · rw [if_neg h, hmun]
  have hmusne : r.mediaUrls ≠ Json.undef := by
    intro h
    rw [h] at harr
    simp [Json.isArray] at harr
  have g_mus : (itemToJson r).get "mediaUrls" = r.mediaUrls := by
    rw [g "mediaUrls", show (Json.obj (exportFields r)).get "mediaUrls"
      = r.mediaUrls from rfl, if_neg hmusne, hmusn]
  have g_vu : (itemToJson r).get "videoUrl" = r.videoUrl := by
    rw [g "videoUrl", show (Json.obj (exportFields r)).get "videoUrl"
      = r.videoUrl from rfl]
    by_cases h : r.videoUrl = Json.undef
    · rw [if_pos h, h]
    · rw [if_neg h, hvun]
  have g_ty : (itemToJson r).get "type" = Json.str r.type := by
    rw [g "type", show (Json.obj (exportFields r)).get "type"
      = Json.str r.type from rfl, if_neg (by simp)]
    rfl
  obtain ⟨xs, hxs⟩ := (Json.isArray_iff _).mp harr
  have htrmus : Json.truthy r.mediaUrls = true := by
    rw [hxs]
    exact Json.truthy_arr xs
  have hrm : resolveMedia (itemToJson r) = (r.mediaUrls, r.mediaUrl, r.videoUrl) := by
    unfold resolveMedia
    rw [g_mus, g_mu, g_vu, if_pos (by rw [htrmus, harr]; rfl)]
  simp only [normalizeEntry, TweetItem.mk.injEq]
  refine ⟨?_, ?_, ?_, ?_, ?_, ?_, ?_, ?_, ?_, ?_, h0.symm, trivial⟩
  · unfold resolveId
    rw [g_id, gmiss "tweet_id" rfl, gmiss "tweetId" rfl]
    have htr : Json.truthy (Json.str r.id) = true := (truthy_str_iff _).mpr hid
    rw [show Json.jsOr (Json.str r.id) (Json.jsOr Json.undef
        (Json.jsOr Json.undef (Json.str "unknown_id"))) = Json.str r.id
      from by simp [Json.jsOr, htr]]
    simp only []
    rw [show Json.jsToString (Json.str r.id) = r.id from rfl]
    simp [hbm]
  · rw [g_ft, gmiss "full_text" rfl, gmiss "text" rfl]
    rcases hft with hft | hft
    · simp [Json.jsOr, hft]
    · rw [hft]
      simp [Json.jsOr, Json.truthy]
  · unfold resolveDate
    rw [g_ca, if_pos (by exact (truthy_str_iff _).mpr (toISOString_ne_empty ms))]
    rw [show jsNewDate (Json.str (toISOString ms)) = parseISO (toISOString ms)
      from rfl, hparse]
  · rw [show Json.jsOr ((itemToJson r).get "authorHandle")
        (Json.jsOr ((itemToJson r).get "screen_name") (Json.str "Unknown"))
      = r.authorHandle from by rw [g_ah]; simp [Json.jsOr, hah]]
  · rw [show Json.jsOr ((itemToJson r).get "authorName")
        (Json.jsOr ((itemToJson r).get "name")
          (Json.jsOr ((itemToJson r).get "username") (Json.str "Twitter User")))
      = r.authorName from by rw [g_an]; simp [Json.jsOr, han]]
  · rw [g_av, gmiss "profile_image_url" rfl, gmiss "avatar_url" rfl]
    rcases hav with hav | hav
    · rw [hav]
      simp [Json.jsOr]
    · simp [Json.jsOr, hav]
  · rw [hrm]
  · rw [hrm]
  · rw [hrm]
  · unfold resolveType
    rw [g_ty]
    rcases hty with h | h <;> rw [h] <;> rfl

/-- Store well-formedness: unique keys, each row keyed by its record's
id, and every live record importer-well-formed. -/
def WFStore (s : Store) : Prop :=
  (Store.keys s).Nodup ∧
  ∀ kv ∈ s, kv.2.id = kv.1 ∧ (kv.2.isDeleted = 0 → WFitem kv.2)

instance (r : TweetItem) : Decidable (WFitem r) := by
  unfold WFitem
  infer_instance

instance (s : Store) : Decidable (WFStore s) := by
  unfold WFStore
  infer_instance

theorem items_filter_id (s : Store) (hnd : (Store.keys s).Nodup)
    (hid : ∀ kv ∈ s, kv.2.id = kv.1) (i : String) :
    ((s.map Prod.snd).filter (fun r => r.isDeleted = 0)).filter
        (fun r => r.id = i)
      = (match Store.get s i with
         | some r => if r.isDeleted = 0 then [r] else []
         | none => []) := by
  induction s with
  | nil => rfl
  | cons kv s ih =>
      obtain ⟨k, v⟩ := kv
      simp only [Store.keys, List.map_cons, List.nodup_cons] at hnd
      have hv : v.id = k := hid (k, v) (by simp)
      have hidtail : ∀ kv ∈ s, kv.2.id = kv.1 :=
        fun kv hkv => hid kv (by simp [hkv])
      have htail := ih hnd.2 hidtail
      by_cases hk : k = i
      · subst hk
        have hrest : ((s.map Prod.snd).filter (fun r => r.isDeleted = 0)).filter
            (fun r => r.id = k) = [] := by
          rw [List.filter_eq_nil_iff]
          intro x hx
          have hxmem : x ∈ s.map Prod.snd := List.mem_of_mem_filter hx
          obtain ⟨kv2, hkv2, rfl⟩ := List.mem_map.mp hxmem
          have hxid := hid kv2 (by simp [hkv2])
          have hne : kv2.1 ≠ k := by
            intro he
            exact hnd.1 (he ▸ (List.mem_map_of_mem Prod.fst hkv2))
          simp [hxid, hne]
        by_cases hdel : v.isDeleted = 0
        · rw [show (((k, v) :: s).map Prod.snd) = v :: s.map Prod.snd from rfl,
            List.filter_cons_of_pos (by simp [hdel]),
            List.filter_cons_of_pos (by simp [hv]), hrest,
            show Store.get ((k, v) :: s) k = some v from by simp [Store.get]]
          simp [hdel]
        · rw [show (((k, v) :: s).map Prod.snd) = v :: s.map Prod.snd from rfl,
            List.filter_cons_of_neg (by simp [hdel]), hrest,
            show Store.get ((k, v) :: s) k = some v from by simp [Store.get]]
          simp [hdel]
      · have hvne : ¬ v.id = i := by rw [hv]; exact hk
        rw [show (((k, v) :: s).map Prod.snd) = v :: s.map Prod.snd from rfl]
        by_cases hdel : v.isDeleted = 0
        · rw [List.filter_cons_of_pos (by simp [hdel]),
            List.filter_cons_of_neg (by simp [hvne]), htail,
            show Store.get ((k, v) :: s) i = Store.get s i from by
              simp [Store.get, hk]]
        · rw [List.filter_cons_of_neg (by simp [hdel]), htail,
            show Store.get ((k, v) :: s) i = Store.get s i from by
              simp [Store.get, hk]]

theorem validFileName_json (pre : String) :
    validFileName (pre ++ ".json") = true := by
  unfold validFileName
  simp only []
  rw [String.data_append, List.map_append,
    show ".json".data.map Char.toLower = ".json".data from by decide]
  have hsuf : ".json".data <:+ pre.data.map Char.toLower ++ ".json".data :=
    List.suffix_append _ _
  rw [decide_eq_true hsuf]
  rfl

/-- C2 (amended): re-importing the JSON export of a well-formed store
reproduces the store except for the raw payloads of the re-imported
records: every id maps to the same record with the same field values
and the same deleted flag, except that each live (exported) record's
`jsonBlob` becomes the exported record object itself instead of the
original raw payload. -/
theorem claim_C2 (s : Store) (now now2 : Int) (hwf : WFStore s)
    (name : String) (entries : List Json)
    (hexp : exportDataJson s now = some (name, entries)) :
    ∃ st, processTwillotJson name entries now2 s = .ok (entries.length, st) ∧
      ∀ i, Store.get st i = (Store.get s i).map
        (fun r => if r.isDeleted = 0
          then { r with jsonBlob := itemToJson r } else r) := by
  obtain ⟨hnd, hkv⟩ := hwf
  unfold exportDataJson at hexp
  simp only [] at hexp
  by_cases hz : ((s.map Prod.snd).filter (fun r => r.isDeleted = 0)).length = 0
  · rw [if_pos hz] at hexp
    exact absurd hexp (by simp)
  rw [if_neg hz] at hexp
  simp only [Option.some.injEq, Prod.mk.injEq] at hexp
  obtain ⟨hname, hentries⟩ := hexp
  have hvalid : validFileName name = true := by
    rw [← hname]
    exact validFileName_json _
  have hene : ¬ entries.isEmpty = true := by
    rw [List.isEmpty_iff]
    intro h
    rw [← hentries, List.map_eq_nil_iff] at h
    exact hz (by rw [h]; rfl)
  refine ⟨Store.bulkPut s (entries.map (fun e => normalizeEntry e now2)), ?_, ?_⟩
  · unfold processTwillotJson
    rw [if_neg (by simp [hvalid]), if_neg hene]
    simp
  · intro i
    have hmap : entries.map (fun e => normalizeEntry e now2)
        = ((s.map Prod.snd).filter (fun r => r.isDeleted = 0)).map
            (fun r => { r with jsonBlob := itemToJson r }) := by
      rw [← hentries, List.map_map]
      apply List.map_congr_left
      intro r hr
      have hdel : r.isDeleted = 0 := by
        have := List.of_mem_filter hr
        simpa using this
      have hmem : r ∈ s.map Prod.snd := List.mem_of_mem_filter hr
      obtain ⟨kv, hkv2, rfl⟩ := List.mem_map.mp hmem
      exact reimport_item _ now2 ((hkv kv hkv2).2 hdel) hdel
    rw [Store.get_bulkPut, hmap, find?_reverse_eq_getLast?_filter,
      List.filter_map]
    rw [show ((fun r : TweetItem => decide (r.id = i)) ∘
        (fun r : TweetItem => { r with jsonBlob := itemToJson r }))
      = (fun r : TweetItem => decide (r.id = i)) from rfl]
    rw [items_filter_id s hnd (fun kv hkv2 => (hkv kv hkv2).1) i]
    cases hget : Store.get s i with
    | none => simp [hget]
    | some r =>
        by_cases hdel : r.isDeleted = 0
        · simp [hget, hdel]
        · simp [hget, hdel]

/-- A concrete record imported from a third-party entry; its raw
payload is the original entry. -/
def c2entry : Json :=
  Json.obj [("tweet_id", Json.str "1"), ("full_text", Json.str "hello"),
    ("created_at", Json.num 1700000000)]

/-- The stored record produced by importing `c2entry`. -/
def c2item : TweetItem := normalizeEntry c2entry 0

/-- A one-record store produced by the importer. -/
def c2store : Store := [("1", c2item)]

/-- C2 counterexample: exporting the store and re-importing the
exported file changes the stored record — its `jsonBlob` (the raw
payload preserved for re-export fidelity) becomes the exported record
object instead of the original entry — so the round trip does not
reproduce an identical store. -/
theorem claim_C2_counterexample :
    exportDataJson c2store 0
      = some ("twitter-vault-export-1970-01-01.json", [itemToJson c2item]) ∧
    processTwillotJson "twitter-vault-export-1970-01-01.json"
        [itemToJson c2item] 0 c2store
      = .ok (1, [("1", { c2item with jsonBlob := itemToJson c2item })]) ∧
    { c2item with jsonBlob := itemToJson c2item } ≠ c2item := by
  decide

theorem claim_C2_witness :
    ∃ st, processTwillotJson "twitter-vault-export-1970-01-01.json"
        [itemToJson c2item] 5 c2store
      = .ok ([itemToJson c2item].length, st) ∧
      ∀ i, Store.get st i = (Store.get c2store i).map
        (fun r => if r.isDeleted = 0
          then { r with jsonBlob := itemToJson r } else r) :=
  claim_C2 c2store 0 5 (by decide) "twitter-vault-export-1970-01-01.json"
    [itemToJson c2item] (by decide)

end TwitterVault
